import Mathlib

/-!
Verification of the SpringMagic Phaser core (`src/core/phaser.py`,
`src/core/utils/math_utils.py`, `src/operators.py`).

The Python code computes with `mathutils` vectors/quaternions over IEEE
floats; we embed it in exact real arithmetic (`ℝ`), translating each
function from the source.  `mathutils.Vector` becomes `Vec3`,
`mathutils.Quaternion` becomes `Quat`; `Vector.normalize` of the zero
vector yields the zero vector, exactly as in Blender.
-/

namespace SpringMagic

noncomputable section

/-- World-space 3D vector (model of `mathutils.Vector` of size 3). -/
@[ext]
structure Vec3 where
  x : ℝ
  y : ℝ
  z : ℝ

namespace Vec3

instance : Zero Vec3 := ⟨⟨0, 0, 0⟩⟩
instance : Add Vec3 := ⟨fun a b => ⟨a.x + b.x, a.y + b.y, a.z + b.z⟩⟩
instance : Sub Vec3 := ⟨fun a b => ⟨a.x - b.x, a.y - b.y, a.z - b.z⟩⟩
instance : Neg Vec3 := ⟨fun a => ⟨-a.x, -a.y, -a.z⟩⟩
instance : SMul ℝ Vec3 := ⟨fun t a => ⟨t * a.x, t * a.y, t * a.z⟩⟩

@[simp] theorem zero_x : (0 : Vec3).x = 0 := rfl
@[simp] theorem zero_y : (0 : Vec3).y = 0 := rfl
@[simp] theorem zero_z : (0 : Vec3).z = 0 := rfl
@[simp] theorem add_x (a b : Vec3) : (a + b).x = a.x + b.x := rfl
@[simp] theorem add_y (a b : Vec3) : (a + b).y = a.y + b.y := rfl
@[simp] theorem add_z (a b : Vec3) : (a + b).z = a.z + b.z := rfl
@[simp] theorem sub_x (a b : Vec3) : (a - b).x = a.x - b.x := rfl
@[simp] theorem sub_y (a b : Vec3) : (a - b).y = a.y - b.y := rfl
@[simp] theorem sub_z (a b : Vec3) : (a - b).z = a.z - b.z := rfl
@[simp] theorem neg_x (a : Vec3) : (-a).x = -a.x := rfl
@[simp] theorem neg_y (a : Vec3) : (-a).y = -a.y := rfl
@[simp] theorem neg_z (a : Vec3) : (-a).z = -a.z := rfl
@[simp] theorem smul_x (t : ℝ) (a : Vec3) : (t • a).x = t * a.x := rfl
@[simp] theorem smul_y (t : ℝ) (a : Vec3) : (t • a).y = t * a.y := rfl
@[simp] theorem smul_z (t : ℝ) (a : Vec3) : (t • a).z = t * a.z := rfl

/-- Dot product (`Vector.dot`). -/
def dot (a b : Vec3) : ℝ := a.x * b.x + a.y * b.y + a.z * b.z

/-- Cross product (`Vector.cross`). -/
def cross (a b : Vec3) : Vec3 :=
  ⟨a.y * b.z - a.z * b.y, a.z * b.x - a.x * b.z, a.x * b.y - a.y * b.x⟩

/-- Squared length (`Vector.length_squared`). -/
def lengthSq (a : Vec3) : ℝ := a.dot a

/-- Length (`Vector.length`). -/
def length (a : Vec3) : ℝ := Real.sqrt a.lengthSq

/-- Normalized copy (`Vector.normalized`); the zero vector stays zero,
as in Blender. -/
def normalized (a : Vec3) : Vec3 := (1 / a.length) • a

/-- Linear interpolation (`Vector.lerp`): `a + t * (b - a)`. -/
def lerp (a b : Vec3) (t : ℝ) : Vec3 := a + t • (b - a)

end Vec3

/-- Model of `math_utils.clamp`: `max(min(maxn, n), minn)`. -/
def clamp (n minn maxn : ℝ) : ℝ := max (min maxn n) minn

/-- Model of `PhaserCore._closest_point_on_segment`. -/
def closestPointOnSegment (p a b : Vec3) : Vec3 :=
  let ab := b - a
  let abLenSq := ab.lengthSq
  if abLenSq = 0 then a
  else a + (clamp (((p - a).dot ab) / abLenSq) 0 1) • ab

/-- Spec-side notation for the point of the closed segment `[a, b]` at
parameter `s`. -/
def segPoint (a b : Vec3) (s : ℝ) : Vec3 := a + s • (b - a)

/-- One iteration of the loop body of `PhaserCore._apply_capsule_collision`,
correcting `point` against a single cached bone capsule `(head, tail, radius)`. -/
def capsuleCorrect (point head tail : Vec3) (radius : ℝ) : Vec3 :=
  let closest := closestPointOnSegment point head tail
  let delta := point - closest
  let dist := delta.length
  if dist < radius then
    let delta2 :=
      if dist < 0.000001 then
        let axis := (tail - head).normalized
        let d1 := axis.cross ⟨1, 0, 0⟩
        if d1.length < 0.000001 then axis.cross ⟨0, 1, 0⟩ else d1
      else delta
    if 0 < delta2.length then closest + radius • delta2.normalized else point
  else point

/-- Model of `PhaserCore._apply_capsule_collision`: sequential correction of a
point against the cached bone capsules (the `exclude_names` filtering of the
Python is reflected in the choice of the capsule list). -/
def applyCapsuleCollision (point : Vec3) (capsules : List (Vec3 × Vec3 × ℝ)) : Vec3 :=
  capsules.foldl (fun corrected c => capsuleCorrect corrected c.1 c.2.1 c.2.2) point

/-- Model of `PhaserCore._collide_sphere`; `center` is the collider's world
translation and `radius` the inflated radius `max(dimensions)/2 + margin`. -/
def collideSphere (point center : Vec3) (radius : ℝ) : Vec3 :=
  if radius ≤ 0 then point
  else
    let delta := point - center
    let dist := delta.length
    if dist < radius then
      let delta2 := if dist < 0.000001 then (⟨1, 0, 0⟩ : Vec3) else delta
      center + radius • delta2.normalized
    else point

/-- Model of `PhaserCore._apply_plane_collision` for a cached plane with unit
`normal` through `point0`; `_cache_collision_plane` guarantees the cached
normal is normalized and the no-plane early return is the identity. -/
def applyPlaneCollision (point normal point0 : Vec3) : Vec3 :=
  let dist := (point - point0).dot normal
  if dist < 0 then point - dist • normal
  else point

/-- Axis-interval inflation of `PhaserCore._collide_box`: a degenerate (flat)
axis is expanded by `max(0.0001, margin)`, a regular axis by `margin`. -/
def boxInflate (mn mx margin : ℝ) : ℝ × ℝ :=
  if mn = mx then (mn - max 0.0001 margin, mx + max 0.0001 margin)
  else (mn - margin, mx + margin)

/-- Model of `PhaserCore._collide_box` in the collider's local coordinate
frame (the Python conjugates this computation by `obj.matrix_world`); the six
bounds are the extrema of `obj.bound_box`. -/
def collideBoxLocal (l : Vec3) (minX maxX minY maxY minZ maxZ margin : ℝ) : Vec3 :=
  let ix := boxInflate minX maxX margin
  let iy := boxInflate minY maxY margin
  let iz := boxInflate minZ maxZ margin
  if ix.1 ≤ l.x ∧ l.x ≤ ix.2 ∧ iy.1 ≤ l.y ∧ l.y ≤ iy.2 ∧ iz.1 ≤ l.z ∧ l.z ≤ iz.2 then
    let dx := min (l.x - ix.1) (ix.2 - l.x)
    let dy := min (l.y - iy.1) (iy.2 - l.y)
    let dz := min (l.z - iz.1) (iz.2 - l.z)
    if dx ≤ dy ∧ dx ≤ dz then
      ⟨if l.x - ix.1 < ix.2 - l.x then ix.1 else ix.2, l.y, l.z⟩
    else if dy ≤ dz then
      ⟨l.x, if l.y - iy.1 < iy.2 - l.y then iy.1 else iy.2, l.z⟩
    else
      ⟨l.x, l.y, if l.z - iz.1 < iz.2 - l.z then iz.1 else iz.2⟩
  else l

/-- Spec-side predicate: `l` lies strictly inside the inflated box. -/
def boxStrictInside (l : Vec3) (minX maxX minY maxY minZ maxZ margin : ℝ) : Prop :=
  let ix := boxInflate minX maxX margin
  let iy := boxInflate minY maxY margin
  let iz := boxInflate minZ maxZ margin
  ix.1 < l.x ∧ l.x < ix.2 ∧ iy.1 < l.y ∧ l.y < iy.2 ∧ iz.1 < l.z ∧ l.z < iz.2

/-- Spec-side predicate: `l` lies in the closed inflated box. -/
def boxInside (l : Vec3) (minX maxX minY maxY minZ maxZ margin : ℝ) : Prop :=
  let ix := boxInflate minX maxX margin
  let iy := boxInflate minY maxY margin
  let iz := boxInflate minZ maxZ margin
  ix.1 ≤ l.x ∧ l.x ≤ ix.2 ∧ iy.1 ≤ l.y ∧ l.y ≤ iy.2 ∧ iz.1 ≤ l.z ∧ l.z ≤ iz.2

/-- The module constant `SCENE_FORCE_SCALE` of `src/core/phaser.py`. -/
def SCENE_FORCE_SCALE : ℝ := 0.01

/-- Force-application fragment of `PhaserCore.calculate_step`: the base
constant force, the wind-object vector, and the scene-field sum are added to
`phase_vec` (each guarded by its toggle, the wind also by a nonzero length,
the scene forces additionally scaled by `SCENE_FORCE_SCALE`). -/
def forceStep (phaseVec : Vec3) (useForce : Bool) (forceVecWorld : Vec3)
    (useWind : Bool) (windVecWorld : Vec3) (useFields : Bool) (sceneForce : Vec3)
    (delay : ℝ) : Vec3 :=
  let pv1 := if useForce then phaseVec + (1 / max delay 1) • forceVecWorld else phaseVec
  let pv2 :=
    if useWind ∧ 0 < windVecWorld.length then pv1 + (1 / max delay 1) • windVecWorld else pv1
  if useFields then pv2 + (1 / max delay 1) • SCENE_FORCE_SCALE • sceneForce else pv2

/-- The force application as the specification's C3 sentence describes it:
every contribution other than the constant force — the wind-object vector
and the scene fields alike — scaled down by `SCENE_FORCE_SCALE`. -/
def forceStepSpec (phaseVec : Vec3) (useForce : Bool) (forceVecWorld : Vec3)
    (useWind : Bool) (windVecWorld : Vec3) (useFields : Bool) (sceneForce : Vec3)
    (delay : ℝ) : Vec3 :=
  let pv1 := if useForce then phaseVec + (1 / max delay 1) • forceVecWorld else phaseVec
  let pv2 :=
    if useWind ∧ 0 < windVecWorld.length then
      pv1 + (1 / max delay 1) • SCENE_FORCE_SCALE • windVecWorld
    else pv1
  if useFields then pv2 + (1 / max delay 1) • SCENE_FORCE_SCALE • sceneForce else pv2

/-- Deadzone fragment of `PhaserCore.calculate_step`: dt scaling, tension
damping, threshold zeroing, then the update of `y_vec` and the value stored
into `old_vec[i]` (returned as the second component). -/
def deadzoneStep (phaseVec yVec : Vec3) (dtScale tens trshd : ℝ) : Vec3 × Vec3 :=
  let pv1 := dtScale • phaseVec
  let pv2 := if 0 < tens then (1 - tens) • pv1 else pv1
  let pv3 := if pv2.length < trshd then (0 : Vec3) else pv2
  (yVec + pv3, pv3)

/-- Quaternion `(w, x, y, z)`, model of `mathutils.Quaternion`. -/
@[ext]
structure Quat where
  w : ℝ
  x : ℝ
  y : ℝ
  z : ℝ

namespace Quat

instance : Neg Quat := ⟨fun q => ⟨-q.w, -q.x, -q.y, -q.z⟩⟩

/-- Four-dimensional dot product of quaternions. -/
def dot (a b : Quat) : ℝ := a.w * b.w + a.x * b.x + a.y * b.y + a.z * b.z

/-- Squared norm. -/
def normSq (a : Quat) : ℝ := a.dot a

/-- Hamilton product (`Quaternion.__matmul__`). -/
def mul (a b : Quat) : Quat :=
  ⟨a.w * b.w - a.x * b.x - a.y * b.y - a.z * b.z,
   a.w * b.x + a.x * b.w + a.y * b.z - a.z * b.y,
   a.w * b.y - a.x * b.z + a.y * b.w + a.z * b.x,
   a.w * b.z + a.x * b.y - a.y * b.x + a.z * b.w⟩

/-- Model of `Quaternion.normalize`. -/
def normalize (a : Quat) : Quat :=
  let n := Real.sqrt a.normSq
  ⟨a.w / n, a.x / n, a.y / n, a.z / n⟩

/-- Model of `Quaternion.inverted` (conjugate over squared norm). -/
def inverted (a : Quat) : Quat :=
  let n := a.normSq
  ⟨a.w / n, -a.x / n, -a.y / n, -a.z / n⟩

/-- Model of Blender's `interp_qt_qtqt` (`Quaternion.slerp`): shortest-path
spherical interpolation — the first quaternion is negated when the dot
product is negative — with a linear fallback for nearly parallel inputs. -/
def slerp (a b : Quat) (t : ℝ) : Quat :=
  let cosom := a.dot b
  let qa := if cosom < 0 then -a else a
  let cosom2 := if cosom < 0 then -cosom else cosom
  if 0.0001 < 1 - cosom2 then
    let om := Real.arccos cosom2
    let sinom := Real.sin om
    let w1 := Real.sin ((1 - t) * om) / sinom
    let w2 := Real.sin (t * om) / sinom
    ⟨w1 * qa.w + w2 * b.w, w1 * qa.x + w2 * b.x, w1 * qa.y + w2 * b.y, w1 * qa.z + w2 * b.z⟩
  else
    ⟨(1 - t) * qa.w + t * b.w, (1 - t) * qa.x + t * b.x, (1 - t) * qa.y + t * b.y,
     (1 - t) * qa.z + t * b.z⟩

end Quat

/-- Unit quaternion for a rotation of angle `t` about the X axis. -/
def axisQuatX (t : ℝ) : Quat := ⟨Real.cos (t / 2), Real.sin (t / 2), 0, 0⟩

/-- Unit quaternion for a rotation of angle `t` about the Y axis. -/
def axisQuatY (t : ℝ) : Quat := ⟨Real.cos (t / 2), 0, Real.sin (t / 2), 0⟩

/-- Unit quaternion for a rotation of angle `t` about the Z axis. -/
def axisQuatZ (t : ℝ) : Quat := ⟨Real.cos (t / 2), 0, 0, Real.sin (t / 2)⟩

/-- Model of `mathutils.Euler.to_quaternion` for the default XYZ order
(rotation matrix `Rz Ry Rx`, quaternion `qz * qy * qx`). -/
def eulerToQuatXYZ (e : Vec3) : Quat :=
  Quat.mul (axisQuatZ e.z) (Quat.mul (axisQuatY e.y) (axisQuatX e.x))

/-- Two-argument arctangent (C `atan2`), used by the matrix-to-euler
extraction. -/
def arctan2 (y x : ℝ) : ℝ :=
  if 0 < x then Real.arctan (y / x)
  else if x < 0 then
    if 0 ≤ y then Real.arctan (y / x) + Real.pi else Real.arctan (y / x) - Real.pi
  else
    if 0 < y then Real.pi / 2 else if y < 0 then -(Real.pi / 2) else 0

/-- Model of `mathutils.Quaternion.to_euler` for XYZ order: normalize, form
the rotation matrix `Rz Ry Rx` and extract the angles (Blender chooses
between two equivalent candidate eulers; we model the principal candidate —
no theorem below needs to unfold this). -/
def quatToEulerXYZ (q0 : Quat) : Vec3 :=
  let q := q0.normalize
  let m21 := 2 * (q.y * q.z + q.w * q.x)
  let m22 := 1 - 2 * (q.x * q.x + q.y * q.y)
  let m20 := 2 * (q.x * q.z - q.w * q.y)
  let m10 := 2 * (q.x * q.y + q.w * q.z)
  let m00 := 1 - 2 * (q.y * q.y + q.z * q.z)
  ⟨arctan2 m21 m22, arctan2 (-m20) (Real.sqrt (m21 ^ 2 + m22 ^ 2)), arctan2 m10 m00⟩

/-- Per-bone pose channels as cached and keyed by the Phaser (`location`,
`rotation_quaternion`, `rotation_euler` in XYZ order, `scale`). -/
@[ext]
structure Pose where
  loc : Vec3
  rotQuat : Quat
  rotEuler : Vec3
  scale : Vec3

/-- Model of `PhaserCore._blend_override`. -/
def blendOverride (existing spring : Pose) (weight : ℝ) : Pose :=
  { loc := existing.loc.lerp spring.loc weight
    rotQuat := Quat.slerp existing.rotQuat spring.rotQuat weight
    rotEuler := quatToEulerXYZ (Quat.slerp (eulerToQuatXYZ existing.rotEuler)
      (eulerToQuatXYZ spring.rotEuler) weight)
    scale := existing.scale.lerp spring.scale weight }

/-- Model of `PhaserCore._blend_additive`. -/
def blendAdditive (existing spring base : Pose) (weight : ℝ) : Pose :=
  let deltaLoc := spring.loc - base.loc
  let loc := existing.loc + weight • deltaLoc
  let identity : Quat := ⟨1, 0, 0, 0⟩
  let deltaQuat := Quat.mul spring.rotQuat base.rotQuat.inverted
  let weightedDelta := Quat.slerp identity deltaQuat weight
  let rotQuat := (Quat.mul weightedDelta existing.rotQuat).normalize
  let deltaEulerQuat :=
    Quat.mul (eulerToQuatXYZ spring.rotEuler) (eulerToQuatXYZ base.rotEuler).inverted
  let weightedEulerDelta := Quat.slerp identity deltaEulerQuat weight
  let blendedEulerQuat := (Quat.mul weightedEulerDelta (eulerToQuatXYZ existing.rotEuler)).normalize
  let rotEuler := quatToEulerXYZ blendedEulerQuat
  let deltaScale : Vec3 :=
    ⟨if base.scale.x ≠ 0 then spring.scale.x / base.scale.x else 1,
     if base.scale.y ≠ 0 then spring.scale.y / base.scale.y else 1,
     if base.scale.z ≠ 0 then spring.scale.z / base.scale.z else 1⟩
  let oneVec : Vec3 := ⟨1, 1, 1⟩
  let weightedScaleFactor := oneVec.lerp deltaScale weight
  let scale : Vec3 := ⟨existing.scale.x * weightedScaleFactor.x,
    existing.scale.y * weightedScaleFactor.y, existing.scale.z * weightedScaleFactor.z⟩
  { loc := loc, rotQuat := rotQuat, rotEuler := rotEuler, scale := scale }

/-- The two bake blend modes. -/
inductive BakeMode
  | OVERRIDE
  | ADDITIVE

/-- Guard of `PhaserCore.cache_existing_animation`: the existing animation is
cached only when `bake_weight < 0.999`. -/
def cacheExisting (bakeWeight : ℝ) (existing : Pose) : Option Pose :=
  if 0.999 ≤ bakeWeight then none else some existing

/-- Model of `PhaserCore.set_animkey`'s channel computation for one bone at
one frame: blend the current spring pose against the cached pose when the
weight is below the cutoff and a cache entry exists; otherwise key the
spring pose unchanged. -/
def setAnimkeyPose (bakeWeight : ℝ) (mode : BakeMode) (cached : Option Pose)
    (basePose : Option Pose) (springPose : Pose) : Pose :=
  if bakeWeight < 0.999 then
    match cached with
    | some existing =>
      match mode with
      | .ADDITIVE =>
        match basePose with
        | some base => blendAdditive existing springPose base bakeWeight
        | none => blendOverride existing springPose bakeWeight
      | .OVERRIDE => blendOverride existing springPose bakeWeight
    | none => springPose
  else springPose

/-- Per-bone per-frame write pipeline of a Calculate run:
`cache_existing_animation` (with its weight cutoff) followed by
`set_animkey`. -/
def bakeWrite (bakeWeight : ℝ) (mode : BakeMode) (existing : Pose)
    (basePose : Option Pose) (springPose : Pose) : Pose :=
  setAnimkeyPose bakeWeight mode (cacheExisting bakeWeight existing) basePose springPose

/-- Model of `PhaserCore.match_end_to_start` for one bone: the start-frame
pose is assigned at the end frame and keyed through `set_animkey`, which
still blends against the cached end-frame animation. -/
def matchEndToStartBone (bakeWeight : ℝ) (mode : BakeMode) (existingAtEnd : Pose)
    (basePose : Option Pose) (startPose : Pose) : Pose :=
  bakeWrite bakeWeight mode existingAtEnd basePose startPose

/-- Spec-side predicate: `v` lies between `a` and `b`, strictly when they
differ. -/
def strictlyBetween (a b v : ℝ) : Prop :=
  (a = b ∧ v = a) ∨ (a ≠ b ∧ min a b < v ∧ v < max a b)

/-- Model of `PhaserCore._get_scene_fps`: `fps / (fps_base or 1.0)` with a
24 fps fallback for nonpositive results (`or` treats a zero base as 1.0). -/
def getSceneFps (fps fpsBase : ℝ) : ℝ :=
  let base := if fpsBase = 0 then 1 else fpsBase
  let f := fps / base
  if f ≤ 0 then 24 else f

/-- Model of `PhaserCore._calculate_wind_vector`; `windAxis` is the wind
object's world-space local Z axis (`matrix_world.to_3x3() @ (0,0,1)`), or
`none` when no wind object is set. -/
def calculateWindVector (windAxis : Option Vec3) (minStrength maxStrength frequency : ℝ)
    (frameCurrent fps fpsBase : ℝ) : Vec3 :=
  match windAxis with
  | none => 0
  | some direction0 =>
    if direction0.length = 0 then 0
    else
      let direction := direction0.normalized
      let minS := if minStrength > maxStrength then maxStrength else minStrength
      let maxS := if minStrength > maxStrength then minStrength else maxStrength
      let strength :=
        if frequency ≤ 0 then maxS
        else
          let sceneFps := getSceneFps fps fpsBase
          let time := frameCurrent / sceneFps
          let phase := time * frequency * Real.pi * 2
          minS + ((maxS - minS) * (0.5 + 0.5 * Real.sin phase))
      strength • direction

/-- The wind vector as the C6 sentence of the specification states it:
normalized axis times `min + (max - min) * (0.5 + 0.5 * sin(2 π f t))` with
`t = frame / scene_fps`, min and max swapped first when `min > max`, the
magnitude pinned to `max` for `f ≤ 0`, and the zero vector for a missing
object or zero-length axis. -/
def windVectorSpec (windAxis : Option Vec3) (minStrength maxStrength frequency : ℝ)
    (frameCurrent fps fpsBase : ℝ) : Vec3 :=
  match windAxis with
  | none => 0
  | some direction0 =>
    if direction0.length = 0 then 0
    else
      let p := if minStrength > maxStrength then (maxStrength, minStrength)
               else (minStrength, maxStrength)
      let magnitude :=
        if frequency ≤ 0 then p.2
        else p.1 + (p.2 - p.1) *
          (0.5 + 0.5 * Real.sin (2 * Real.pi * frequency *
            (frameCurrent / getSceneFps fps fpsBase)))
      magnitude • direction0.normalized

/-- Result statuses of a Blender operator `execute`. -/
inductive OpResult
  | FINISHED
  | CANCELLED
deriving DecidableEq

/-- Scene mutations the Calculate operator can perform, in execution order. -/
inductive SceneMut
  | frameSet (f : Int)
  | cacheAnim
  | deleteKeys
  | insertKey (bone : Nat) (frame : Int)
  | setBoneTransform (bone : Nat)
  | matchEndToStart
deriving DecidableEq

/-- Control-flow model of `SpringMagicPhaserCalculate.execute`: both frame
range validations precede every scene mutation; the post-validation body is
abstracted as the ordered event list it emits, with the simulation's own
writes passed in as `simEvents`. -/
def calculateExecute (sf ef : Int) (hasSelection hasTrees useLoop : Bool)
    (simEvents : List SceneMut) : OpResult × List SceneMut :=
  if sf ≥ ef then (.CANCELLED, [])
  else if ef - sf > 10000 then (.CANCELLED, [])
  else
    let evs := [SceneMut.frameSet sf]
    if ¬ hasSelection then (.CANCELLED, evs)
    else if ¬ hasTrees then (.CANCELLED, evs)
    else
      (.FINISHED, evs ++ [SceneMut.cacheAnim, SceneMut.deleteKeys] ++ simEvents ++
        (if useLoop then [SceneMut.matchEndToStart] else []))

/-- One scheduled integrator invocation of `execute_simulation`: the frame,
sub-step index, depth key, chain index within the depth, dt scale, and the
keyframe-insertion flag passed to `calculate_step`. -/
structure StepCall where
  frame : Int
  subStep : Nat
  depth : Int
  chain : Nat
  dtScale : ℝ
  insertKey : Bool

/-- Ascending integer range of a given length (helper for `frameRange`). -/
def intRangeAux : Nat → Int → List Int
  | 0, _ => []
  | n + 1, start => start :: intRangeAux n (start + 1)

/-- Frame iteration of the driver: Python's `range(sf + 1, ef + 1)`. -/
def frameRange (sf ef : Int) : List Int := intRangeAux (ef - sf).toNat (sf + 1)

/-- Model of `PhaserCore.execute_simulation`'s scheduling, as the Python
loops write it: for each frame, for each sub-step, for each depth key in
sorted order, for each chain of that depth, append one `calculate_step`
invocation.  `trees k` is the number of chains stored under depth key `k`. -/
def executeSimulationTrace (sf ef : Int) (subSteps : Int) (keys : List Int)
    (trees : Int → Nat) : List StepCall :=
  let sortedKeys := keys.mergeSort
  let s := max 1 subSteps
  let dtScale : ℝ := 1 / (s : ℝ)
  (frameRange sf ef).foldl (fun acc f =>
    (List.range s.toNat).foldl (fun acc2 st =>
      sortedKeys.foldl (fun acc3 k =>
        (List.range (trees k)).foldl (fun acc4 c =>
          acc4 ++ [⟨f, st, k, c, dtScale, st == s.toNat - 1⟩]) acc3) acc2) acc) []

/-- Armature model for the chain builder: bones are identified by naturals,
`parent` and `children` mirror `pbn.parent` and `pbn.children` (children in
declaration order). -/
structure Armature where
  parent : Nat → Option Nat
  children : Nat → List Nat

/-- Well-formedness of an armature: a bone listed among some bone's children
has exactly that bone as its parent. -/
def chainWf (A : Armature) : Prop :=
  ∀ p c, c ∈ A.children p → A.parent c = some p

/-- Root test of `PhaserCore.get_tree_list`: a parentless bone is skipped; a
selected bone with a parent is a chain root iff the parent is outside the
selection or the bone is not the parent's first child. -/
def isChainRoot (A : Armature) (selected : List Nat) (b : Nat) : Bool :=
  match A.parent b with
  | none => false
  | some p =>
    if p ∉ selected then true
    else if (A.children p).head? ≠ some b then true
    else false

/-- The chain-extension loop of `get_tree_list`: follow first children while
they are selected (`fuel` bounds the walk; any bound at least the armature
depth is exact, as in Blender where bone hierarchies are finite trees). -/
def chainWalk (A : Armature) (selected : List Nat) : Nat → Nat → List Nat
  | _, 0 => []
  | c, fuel + 1 =>
    if c ∈ selected then
      c :: (match (A.children c).head? with
            | none => []
            | some c2 => chainWalk A selected c2 fuel)
    else []

/-- Chain construction from one root in `get_tree_list`: a childless root is
a singleton chain, otherwise the walk continues from the first child. -/
def chainFromRoot (A : Armature) (selected : List Nat) (fuel : Nat) (root : Nat) : List Nat :=
  match (A.children root).head? with
  | none => [root]
  | some c => root :: chainWalk A selected c fuel

/-- Model of `math_utils.get_hierarchy_depth` (with the same fuel bound). -/
def getHierarchyDepth (A : Armature) : Nat → Nat → Nat
  | 0, _ => 0
  | fuel + 1, b =>
    match A.parent b with
    | none => 0
    | some p => getHierarchyDepth A fuel p + 1

/-- Model of `PhaserCore.get_tree_list`: the chains built from each root of
the selection, tagged by hierarchy depth (the Python stores them in a dict
keyed by depth with synthetic tree names; the `(depth, chain)` list carries
the same content). -/
def getTreeList (A : Armature) (selected : List Nat) (fuel : Nat) : List (Nat × List Nat) :=
  (selected.filter (fun b => isChainRoot A selected b)).map
    (fun r => (getHierarchyDepth A fuel r, chainFromRoot A selected fuel r))

/-- A two-bone-chain sample armature: bone 0 is the unselected root, bones 1
and 2 are its children in declaration order. -/
def sampleArmature : Armature :=
  ⟨fun b => if b = 1 ∨ b = 2 then some 0 else none,
   fun b => if b = 0 then [1, 2] else []⟩

/-- Model of `PhaserCore._collide_capsule`; `axisRaw` is the collider's
world-space local Z axis (`matrix_world.to_3x3() @ (0,0,1)`) and `center`
its world translation. -/
def collideCapsule (point : Vec3) (dimX dimY dimZ margin : ℝ) (axisRaw center : Vec3) : Vec3 :=
  let baseRadius := max dimX dimY * 0.5
  let radius := baseRadius + margin
  if radius ≤ 0 then point
  else
    let halfHeight := max 0 (dimZ * 0.5 - baseRadius) + margin
    if axisRaw.length = 0 then point
    else
      let axis := axisRaw.normalized
      let p0 := center - halfHeight • axis
      let p1 := center + halfHeight • axis
      let closest := closestPointOnSegment point p0 p1
      let delta := point - closest
      let dist := delta.length
      if dist < radius then
        let delta2 :=
          if dist < 0.000001 then
            let d1 := axis.cross ⟨1, 0, 0⟩
            if d1.length < 0.000001 then axis.cross ⟨0, 1, 0⟩ else d1
          else delta
        if 0 < delta2.length then closest + radius • delta2.normalized else point
      else point

end

/-! Foundational lemmas about the vector kernel. -/

namespace Vec3

theorem lengthSq_nonneg (a : Vec3) : 0 ≤ a.lengthSq := by
  unfold lengthSq dot
  nlinarith [mul_self_nonneg a.x, mul_self_nonneg a.y, mul_self_nonneg a.z]

theorem length_nonneg (a : Vec3) : 0 ≤ a.length := Real.sqrt_nonneg _

theorem sq_length (a : Vec3) : a.length ^ 2 = a.lengthSq :=
  Real.sq_sqrt a.lengthSq_nonneg

theorem lengthSq_eq_zero_iff (a : Vec3) : a.lengthSq = 0 ↔ a = 0 := by
  constructor
  · intro h
    unfold lengthSq dot at h
    have hx : a.x = 0 := by
      have : a.x * a.x = 0 := by
        nlinarith [mul_self_nonneg a.x, mul_self_nonneg a.y, mul_self_nonneg a.z]
      exact mul_self_eq_zero.mp this
    have hy : a.y = 0 := by
      have : a.y * a.y = 0 := by
        nlinarith [mul_self_nonneg a.x, mul_self_nonneg a.y, mul_self_nonneg a.z]
      exact mul_self_eq_zero.mp this
    have hz : a.z = 0 := by
      have : a.z * a.z = 0 := by
        nlinarith [mul_self_nonneg a.x, mul_self_nonneg a.y, mul_self_nonneg a.z]
      exact mul_self_eq_zero.mp this
    ext <;> simp [hx, hy, hz]
  · intro h; subst h; simp [lengthSq, dot]

theorem length_eq_zero_iff (a : Vec3) : a.length = 0 ↔ a = 0 := by
  unfold length
  rw [Real.sqrt_eq_zero (a.lengthSq_nonneg)]
  exact lengthSq_eq_zero_iff a

theorem length_pos_of_ne_zero {a : Vec3} (h : a ≠ 0) : 0 < a.length :=
  lt_of_le_of_ne a.length_nonneg (fun h0 => h ((length_eq_zero_iff a).1 h0.symm))

theorem lengthSq_smul (t : ℝ) (a : Vec3) : (t • a).lengthSq = t ^ 2 * a.lengthSq := by
  simp [lengthSq, dot]; ring

theorem length_smul (t : ℝ) (a : Vec3) : (t • a).length = |t| * a.length := by
  unfold length
  rw [lengthSq_smul, Real.sqrt_mul (sq_nonneg t), Real.sqrt_sq_eq_abs]

theorem normalized_length {a : Vec3} (h : a ≠ 0) : a.normalized.length = 1 := by
  unfold normalized
  rw [length_smul]
  have hp : 0 < a.length := length_pos_of_ne_zero h
  rw [abs_of_pos (by positivity : (0 : ℝ) < 1 / a.length)]
  field_simp

theorem lengthSq_sub (u d : Vec3) :
    (u - d).lengthSq = u.lengthSq - 2 * u.dot d + d.lengthSq := by
  simp [lengthSq, dot]; ring

theorem add_zero (a : Vec3) : a + 0 = a := by ext <;> simp

theorem one_smul (a : Vec3) : (1 : ℝ) • a = a := by ext <;> simp

theorem dot_smul_left (t : ℝ) (a b : Vec3) : (t • a).dot b = t * a.dot b := by
  simp [dot]; ring

theorem cross_dot_left (a e : Vec3) : (a.cross e).dot a = 0 := by
  simp [cross, dot]; ring

theorem sub_ne_zero_of_ne {a b : Vec3} (h : a ≠ b) : b - a ≠ 0 := by
  intro h0
  apply h
  have hx := congrArg Vec3.x h0
  have hy := congrArg Vec3.y h0
  have hz := congrArg Vec3.z h0
  simp at hx hy hz
  ext <;> linarith

theorem length_lt_iff_lengthSq_lt {a : Vec3} {r : ℝ} (hr : 0 ≤ r) :
    a.length < r ↔ a.lengthSq < r ^ 2 := by
  rw [← a.sq_length]
  constructor
  · intro h
    have := a.length_nonneg
    nlinarith
  · intro h
    nlinarith [a.length_nonneg]

theorem length_eq_one_iff {a : Vec3} : a.length = 1 ↔ a.lengthSq = 1 := by
  rw [← a.sq_length]
  constructor
  · intro h; rw [h]; norm_num
  · intro h
    nlinarith [a.length_nonneg]

end Vec3

/-! Lemmas about the closest-point projection and radial push-out. -/

theorem segPoint_sub_segPoint (a b : Vec3) (s t : ℝ) :
    segPoint a b s - segPoint a b t = (s - t) • (b - a) := by
  unfold segPoint; ext <;> simp <;> ring

theorem closest_spec (p a b : Vec3) :
    ∃ t, 0 ≤ t ∧ t ≤ 1 ∧ closestPointOnSegment p a b = segPoint a b t := by
  unfold closestPointOnSegment segPoint
  by_cases h : (b - a).lengthSq = 0
  · exact ⟨0, le_refl 0, zero_le_one, by simp [h]; ext <;> simp⟩
  · refine ⟨clamp (((p - a).dot (b - a)) / (b - a).lengthSq) 0 1, ?_, ?_, by simp [h]⟩
    · exact le_max_right _ _
    · exact max_le (min_le_left _ _) zero_le_one

theorem dot_push_identity (p a ab : Vec3) (s t : ℝ) :
    (p - (a + t • ab)).dot ((a + s • ab) - (a + t • ab))
      = (s - t) * ((p - a).dot ab - t * ab.lengthSq) := by
  simp [Vec3.dot, Vec3.lengthSq]
  ring

theorem closest_dot_nonpos (p a b : Vec3) (s : ℝ) (hs0 : 0 ≤ s) (hs1 : s ≤ 1) :
    (p - closestPointOnSegment p a b).dot (segPoint a b s - closestPointOnSegment p a b) ≤ 0 := by
  unfold closestPointOnSegment segPoint
  by_cases h : (b - a).lengthSq = 0
  · have hb : b - a = 0 := (Vec3.lengthSq_eq_zero_iff _).1 h
    rw [if_pos h]
    simp [hb, Vec3.dot]
  · rw [if_neg h]
    set d := (p - a).dot (b - a) with hd
    set L := (b - a).lengthSq with hL
    have hLpos : 0 < L := lt_of_le_of_ne (Vec3.lengthSq_nonneg _) (Ne.symm h)
    rw [dot_push_identity]
    rcases le_total (d / L) 0 with hdl | hdl
    · have ht : clamp (d / L) 0 1 = 0 := by
        unfold clamp
        rw [min_eq_right (hdl.trans zero_le_one), max_eq_right hdl]
      rw [ht]
      have hdle : d ≤ 0 := by
        rcases div_nonpos_iff.mp hdl with ⟨h1, h2⟩ | ⟨h1, h2⟩
        · linarith
        · exact h1
      nlinarith
    · rcases le_total (d / L) 1 with hdl1 | hdl1
      · have ht : clamp (d / L) 0 1 = d / L := by
          unfold clamp
          rw [min_eq_right hdl1, max_eq_left hdl]
        rw [ht]
        have hzero : d - d / L * L = 0 := by
          field_simp
        rw [hzero, mul_zero]
      · have ht : clamp (d / L) 0 1 = 1 := by
          unfold clamp
          rw [min_eq_left hdl1, max_eq_left zero_le_one]
        rw [ht]
        have hdge : L ≤ d := (one_le_div hLpos).1 hdl1
        nlinarith

theorem closest_min (p a b : Vec3) (s : ℝ) (hs0 : 0 ≤ s) (hs1 : s ≤ 1) :
    (p - closestPointOnSegment p a b).lengthSq ≤ (p - segPoint a b s).lengthSq := by
  have hdot := closest_dot_nonpos p a b s hs0 hs1
  set c := closestPointOnSegment p a b with hc
  have hxy : p - segPoint a b s = (p - c) - (segPoint a b s - c) := by
    ext <;> simp
  rw [hxy, Vec3.lengthSq_sub (p - c) (segPoint a b s - c)]
  nlinarith [Vec3.lengthSq_nonneg (segPoint a b s - c)]

theorem closest_min_length (p a b : Vec3) (s : ℝ) (hs0 : 0 ≤ s) (hs1 : s ≤ 1) :
    (p - closestPointOnSegment p a b).length ≤ (p - segPoint a b s).length :=
  Real.sqrt_le_sqrt (closest_min p a b s hs0 hs1)

theorem le_length_of_dot_nonpos (u d : Vec3) (r : ℝ) (hr : 0 ≤ r)
    (hu : u.length = r) (hd : u.dot d ≤ 0) : r ≤ (u - d).length := by
  have husq : u.lengthSq = r ^ 2 := by rw [← Vec3.sq_length, hu]
  have h1 : r ^ 2 ≤ (u - d).lengthSq := by
    rw [Vec3.lengthSq_sub, husq]
    nlinarith [Vec3.lengthSq_nonneg d]
  calc r = Real.sqrt (r ^ 2) := (Real.sqrt_sq hr).symm
    _ ≤ Real.sqrt ((u - d).lengthSq) := Real.sqrt_le_sqrt h1
    _ = (u - d).length := rfl

/-- Radial push-out: leaving the closest point of a segment along a direction
`w` whose inner product with every segment chord from the closest point is
nonpositive lands exactly outside (at distance at least `r` from every point
of the segment). -/
theorem push_dist (p a b : Vec3) (r s : ℝ) (w : Vec3)
    (hw : w ≠ 0) (hr : 0 ≤ r)
    (hdot : w.dot (segPoint a b s - closestPointOnSegment p a b) ≤ 0) :
    r ≤ ((closestPointOnSegment p a b + r • w.normalized) - segPoint a b s).length := by
  have hwlen : 0 < w.length := Vec3.length_pos_of_ne_zero hw
  have hu : (r • w.normalized).length = r := by
    rw [Vec3.length_smul, Vec3.normalized_length hw, abs_of_nonneg hr, mul_one]
  have hrw : (closestPointOnSegment p a b + r • w.normalized) - segPoint a b s
      = (r • w.normalized) - (segPoint a b s - closestPointOnSegment p a b) := by
    ext <;> simp <;> ring
  rw [hrw]
  apply le_length_of_dot_nonpos _ _ _ hr hu
  have h1 : (r • w.normalized).dot (segPoint a b s - closestPointOnSegment p a b)
      = r * ((1 / w.length) * (w.dot (segPoint a b s - closestPointOnSegment p a b))) := by
    unfold Vec3.normalized
    rw [Vec3.dot_smul_left, Vec3.dot_smul_left]
  rw [h1]
  have hc : (0 : ℝ) ≤ 1 / w.length := by positivity
  nlinarith [mul_nonneg (mul_nonneg hr hc) (neg_nonneg.2 hdot)]

theorem dot_smul_right (t : ℝ) (a b : Vec3) : a.dot (t • b) = t * a.dot b := by
  simp [Vec3.dot]; ring

theorem ne_zero_of_length_pos {a : Vec3} (h : 0 < a.length) : a ≠ 0 := by
  intro h0
  rw [h0] at h
  have : (0 : Vec3).length = 0 := by
    simp [Vec3.length, Vec3.lengthSq, Vec3.dot]
  rw [this] at h
  exact lt_irrefl 0 h

theorem xvec_ne_zero : (⟨1, 0, 0⟩ : Vec3) ≠ 0 := by
  intro h
  have := congrArg Vec3.x h
  simp at this

theorem smul_normalized (v : Vec3) (hv : v ≠ 0) : v.length • v.normalized = v := by
  have h : v.length ≠ 0 := ne_of_gt (Vec3.length_pos_of_ne_zero hv)
  unfold Vec3.normalized
  ext <;> field_simp

/-- The fallback push axis of the capsule resolvers is perpendicular to every
chord of the capsule's core segment when that segment is parallel to `axis`. -/
theorem cross_axis_dot_chord (p a b axis e : Vec3) (k : ℝ) (hk : b - a = k • axis) (s : ℝ) :
    (axis.cross e).dot (segPoint a b s - closestPointOnSegment p a b) = 0 := by
  obtain ⟨t, _, _, htc⟩ := closest_spec p a b
  rw [htc, segPoint_sub_segPoint, hk]
  have : (s - t) • k • axis = ((s - t) * k) • axis := by ext <;> simp <;> ring
  rw [this, dot_smul_right, Vec3.cross_dot_left, mul_zero]

/-- When the first fallback axis `axis × (1,0,0)` is degenerate for a unit
`axis`, the second fallback `axis × (0,1,0)` is not. -/
theorem fallback_pos {axis : Vec3} (h1 : axis.lengthSq = 1)
    (hx : (axis.cross ⟨1, 0, 0⟩).length < 0.000001) :
    0 < (axis.cross ⟨0, 1, 0⟩).length := by
  have hxsq : (axis.cross ⟨1, 0, 0⟩).lengthSq < 0.000001 ^ 2 :=
    (Vec3.length_lt_iff_lengthSq_lt (by norm_num)).1 hx
  have hysq : 0 < (axis.cross ⟨0, 1, 0⟩).lengthSq := by
    simp only [Vec3.cross, Vec3.lengthSq, Vec3.dot] at hxsq h1 ⊢
    nlinarith [sq_nonneg axis.x, sq_nonneg axis.y, sq_nonneg axis.z]
  have := Vec3.length_nonneg (axis.cross ⟨0, 1, 0⟩)
  rcases lt_or_eq_of_le this with h | h
  · exact h
  · exfalso
    have h0 : axis.cross ⟨0, 1, 0⟩ = 0 := (Vec3.length_eq_zero_iff _).1 h.symm
    rw [h0] at hysq
    simp [Vec3.lengthSq, Vec3.dot] at hysq

/-- Soundness of one bone-capsule correction: for a capsule with distinct
endpoints, the returned point is at distance at least `radius` from every
point of the core segment. -/
theorem capsuleCorrect_sound (p a b : Vec3) (r : ℝ) (hab : a ≠ b) (s : ℝ)
    (hs0 : 0 ≤ s) (hs1 : s ≤ 1) :
    r ≤ (capsuleCorrect p a b r - segPoint a b s).length := by
  have hba : b - a ≠ 0 := Vec3.sub_ne_zero_of_ne hab
  have haxlen : (b - a).normalized.length = 1 := Vec3.normalized_length hba
  have haxsq : (b - a).normalized.lengthSq = 1 := Vec3.length_eq_one_iff.1 haxlen
  have hk : b - a = (b - a).length • (b - a).normalized := (smul_normalized _ hba).symm
  have hdn : 0 ≤ (p - closestPointOnSegment p a b).length := Vec3.length_nonneg _
  simp only [capsuleCorrect]
  split_ifs with h1 h2 h3 h4 h5 h6
  · -- degenerate distance, first fallback degenerate, second fallback valid
    exact push_dist p a b r s _ (ne_zero_of_length_pos h4) (le_trans hdn h1.le)
      (le_of_eq (cross_axis_dot_chord p a b _ _ _ hk s))
  · -- second fallback cannot be degenerate for a unit axis
    exact absurd (fallback_pos haxsq h3) h4
  · -- first fallback valid
    exact push_dist p a b r s _ (ne_zero_of_length_pos h5) (le_trans hdn h1.le)
      (le_of_eq (cross_axis_dot_chord p a b _ _ _ hk s))
  · -- first fallback has length at least the epsilon, contradiction
    exact absurd (lt_of_lt_of_le (by norm_num) (le_of_not_lt h3)) h5
  · -- regular push along `p - closest`
    exact push_dist p a b r s _ (ne_zero_of_length_pos h6) (le_trans hdn h1.le)
      (closest_dot_nonpos p a b s hs0 hs1)
  · -- distance is at least the epsilon here, contradiction
    exact absurd (lt_of_lt_of_le (by norm_num) (le_of_not_lt h2)) h6
  · -- no correction needed: the point is already outside
    exact le_trans (le_of_not_lt h1) (closest_min_length p a b s hs0 hs1)

/-- The bone-capsule correction leaves a point that is already outside (or on)
the inflated surface unchanged. -/
theorem capsuleCorrect_unchanged (p a b : Vec3) (r : ℝ)
    (h : r ≤ (p - closestPointOnSegment p a b).length) :
    capsuleCorrect p a b r = p := by
  simp only [capsuleCorrect]
  rw [if_neg (not_lt.2 h)]

/-- Soundness of the capsule/cylinder collection resolver: with a nonzero
axis, the returned point is at distance at least the inflated radius from
every point of the core segment. -/
theorem collideCapsule_sound (point : Vec3) (dimX dimY dimZ margin : ℝ)
    (axisRaw center : Vec3) (radius halfHeight : ℝ) (p0 p1 : Vec3)
    (hax : axisRaw.length ≠ 0)
    (hrad : radius = max dimX dimY * 0.5 + margin)
    (hh : halfHeight = max 0 (dimZ * 0.5 - max dimX dimY * 0.5) + margin)
    (hp0 : p0 = center - halfHeight • axisRaw.normalized)
    (hp1 : p1 = center + halfHeight • axisRaw.normalized)
    (s : ℝ) (hs0 : 0 ≤ s) (hs1 : s ≤ 1) :
    radius ≤
      (collideCapsule point dimX dimY dimZ margin axisRaw center - segPoint p0 p1 s).length := by
  have haxv : axisRaw ≠ 0 := by
    intro h0
    apply hax
    rw [h0]
    simp [Vec3.length, Vec3.lengthSq, Vec3.dot]
  have haxlen : axisRaw.normalized.length = 1 := Vec3.normalized_length haxv
  have haxsq : axisRaw.normalized.lengthSq = 1 := Vec3.length_eq_one_iff.1 haxlen
  have hk : p1 - p0 = (2 * halfHeight) • axisRaw.normalized := by
    rw [hp0, hp1]; ext <;> simp <;> ring
  have hdn : 0 ≤ (point - closestPointOnSegment point p0 p1).length := Vec3.length_nonneg _
  simp only [collideCapsule]
  rw [← hrad, ← hh, ← hp0, ← hp1]
  split_ifs with h1 h2 h3 h4 h5 h6 h7
  · exact le_trans h1 (Vec3.length_nonneg _)
  · exact push_dist point _ _ _ s _ (ne_zero_of_length_pos h5) (le_trans hdn h2.le)
      (le_of_eq (cross_axis_dot_chord point _ _ _ _ _ hk s))
  · exact absurd (fallback_pos haxsq h4) h5
  · exact push_dist point _ _ _ s _ (ne_zero_of_length_pos h6) (le_trans hdn h2.le)
      (le_of_eq (cross_axis_dot_chord point _ _ _ _ _ hk s))
  · exact absurd (lt_of_lt_of_le (by norm_num) (le_of_not_lt h4)) h6
  · exact push_dist point _ _ _ s _ (ne_zero_of_length_pos h7) (le_trans hdn h2.le)
      (closest_dot_nonpos point _ _ s hs0 hs1)
  · exact absurd (lt_of_lt_of_le (by norm_num) (le_of_not_lt h3)) h7
  · exact le_trans (le_of_not_lt h2) (closest_min_length point _ _ s hs0 hs1)

/-- The capsule/cylinder resolver leaves an outside point unchanged. -/
theorem collideCapsule_unchanged (point : Vec3) (dimX dimY dimZ margin : ℝ)
    (axisRaw center : Vec3) (radius halfHeight : ℝ) (p0 p1 : Vec3)
    (hrad : radius = max dimX dimY * 0.5 + margin)
    (hh : halfHeight = max 0 (dimZ * 0.5 - max dimX dimY * 0.5) + margin)
    (hp0 : p0 = center - halfHeight • axisRaw.normalized)
    (hp1 : p1 = center + halfHeight • axisRaw.normalized)
    (h : radius ≤ (point - closestPointOnSegment point p0 p1).length) :
    collideCapsule point dimX dimY dimZ margin axisRaw center = point := by
  simp only [collideCapsule]
  rw [← hrad, ← hh, ← hp0, ← hp1]
  split_ifs <;> first | rfl | exact absurd h (not_le.2 (by assumption))

/-- Soundness of the sphere resolver: the result is outside (or on) the
inflated sphere, and an outside point is returned unchanged. -/
theorem collideSphere_sound (p c : Vec3) (r : ℝ) :
    r ≤ (collideSphere p c r - c).length ∧
      (r ≤ (p - c).length → collideSphere p c r = p) := by
  constructor
  · simp only [collideSphere]
    split_ifs with h1 h2 h3
    · exact le_trans h1 (Vec3.length_nonneg _)
    · have hi : (c + r • (⟨1, 0, 0⟩ : Vec3).normalized) - c
          = r • (⟨1, 0, 0⟩ : Vec3).normalized := by ext <;> simp
      rw [hi, Vec3.length_smul, Vec3.normalized_length xvec_ne_zero, mul_one,
        abs_of_pos (not_le.1 h1)]
    · have hd : p - c ≠ 0 :=
        ne_zero_of_length_pos (lt_of_lt_of_le (by norm_num) (le_of_not_lt h3))
      have hi : (c + r • (p - c).normalized) - c = r • (p - c).normalized := by
        ext <;> simp
      rw [hi, Vec3.length_smul, Vec3.normalized_length hd, mul_one,
        abs_of_pos (not_le.1 h1)]
    · exact le_of_not_lt h2
  · intro h
    by_cases h1 : r ≤ 0
    · simp only [collideSphere]
      rw [if_pos h1]
    · simp only [collideSphere]
      rw [if_neg h1, if_neg (not_lt.2 h)]

/-- Soundness of the plane resolver: with a unit normal, the result is on
the nonnegative side of the plane, and a point already there is unchanged. -/
theorem applyPlaneCollision_sound (p n p0 : Vec3) (hn : n.dot n = 1) :
    0 ≤ (applyPlaneCollision p n p0 - p0).dot n ∧
      (0 ≤ (p - p0).dot n → applyPlaneCollision p n p0 = p) := by
  constructor
  · simp only [applyPlaneCollision]
    split_ifs with h1
    · have hi : ((p - ((p - p0).dot n) • n) - p0).dot n
          = (p - p0).dot n - ((p - p0).dot n) * (n.dot n) := by
        simp [Vec3.dot]; ring
      rw [hi, hn, mul_one, sub_self]
    · exact le_of_not_lt h1
  · intro h
    simp only [applyPlaneCollision]
    rw [if_neg (not_lt.2 h)]

/-- Soundness of the box resolver (in the collider's local frame): the result
is never strictly inside the inflated box, and a point outside the closed
inflated box is returned unchanged. -/
theorem collideBoxLocal_sound (l : Vec3) (minX maxX minY maxY minZ maxZ margin : ℝ) :
    ¬ boxStrictInside (collideBoxLocal l minX maxX minY maxY minZ maxZ margin)
        minX maxX minY maxY minZ maxZ margin ∧
      (¬ boxInside l minX maxX minY maxY minZ maxZ margin →
        collideBoxLocal l minX maxX minY maxY minZ maxZ margin = l) := by
  constructor
  · simp only [collideBoxLocal, boxStrictInside]
    split_ifs with h1 h2 h3 h4 h5 h6 <;> intro hcon
    · exact lt_irrefl _ hcon.1
    · exact lt_irrefl _ hcon.2.1
    · exact lt_irrefl _ hcon.2.2.1
    · exact lt_irrefl _ hcon.2.2.2.1
    · exact lt_irrefl _ hcon.2.2.2.2.1
    · exact lt_irrefl _ hcon.2.2.2.2.2
    · exact h1 ⟨hcon.1.le, hcon.2.1.le, hcon.2.2.1.le, hcon.2.2.2.1.le,
        hcon.2.2.2.2.1.le, hcon.2.2.2.2.2.le⟩
  · intro h
    simp only [boxInside] at h
    simp only [collideBoxLocal]
    rw [if_neg h]

/-! Claim C10. -/

/-- C10: `_closest_point_on_segment` returns a point of the closed segment
(of the form `a + t (b - a)` with `t ∈ [0, 1]`, hence never outside the
segment), returns exactly `a` in the degenerate case `a = b`, and minimises
the (squared) distance to `p` among all points of the segment. -/
theorem C10_closest_point_on_segment_correct (p a b : Vec3) :
    (∃ t, 0 ≤ t ∧ t ≤ 1 ∧ closestPointOnSegment p a b = segPoint a b t) ∧
      (a = b → closestPointOnSegment p a b = a) ∧
      (∀ s, 0 ≤ s → s ≤ 1 →
        (p - closestPointOnSegment p a b).lengthSq ≤ (p - segPoint a b s).lengthSq) := by
  refine ⟨closest_spec p a b, ?_, fun s hs0 hs1 => closest_min p a b s hs0 hs1⟩
  intro hab
  subst hab
  simp [closestPointOnSegment, Vec3.lengthSq, Vec3.dot]

/-- Witness for C10 at a concrete degenerate segment and interior parameter. -/
theorem C10_closest_point_witness :
    closestPointOnSegment ⟨1, 0, 0⟩ ⟨0, 0, 0⟩ ⟨0, 0, 0⟩ = ⟨0, 0, 0⟩ ∧
      ((⟨1, 0, 0⟩ : Vec3) - closestPointOnSegment ⟨1, 0, 0⟩ ⟨0, 0, 0⟩ ⟨0, 0, 0⟩).lengthSq ≤
        ((⟨1, 0, 0⟩ : Vec3) - segPoint ⟨0, 0, 0⟩ ⟨0, 0, 0⟩ (1 / 2)).lengthSq :=
  ⟨(C10_closest_point_on_segment_correct ⟨1, 0, 0⟩ ⟨0, 0, 0⟩ ⟨0, 0, 0⟩).2.1 rfl,
   (C10_closest_point_on_segment_correct ⟨1, 0, 0⟩ ⟨0, 0, 0⟩ ⟨0, 0, 0⟩).2.2 (1 / 2)
     (by norm_num) (by norm_num)⟩

/-! Claim C1. -/

/-- C1 (amended): every collision resolver returns a point outside or exactly
on the obstacle's inflated surface and leaves an already-outside point
unchanged, except in the degenerate situation exhibited by the
counterexample: the bone-capsule resolver requires a capsule of nonzero
length (`head ≠ tail`); on a zero-length capsule with the candidate on the
segment the candidate is returned unchanged, possibly inside.  (The
capsule/cylinder resolver needs the nonzero collider axis its code checks
for, and the plane resolver the unit normal `_cache_collision_plane`
guarantees.) -/
theorem C1_collision_resolvers_outside :
    (∀ p a b r s, a ≠ b → 0 ≤ s → s ≤ 1 →
      r ≤ (capsuleCorrect p a b r - segPoint a b s).length) ∧
    (∀ p a b r, r ≤ (p - closestPointOnSegment p a b).length → capsuleCorrect p a b r = p) ∧
    (∀ p c r, r ≤ (collideSphere p c r - c).length ∧
      (r ≤ (p - c).length → collideSphere p c r = p)) ∧
    (∀ p n p0, n.dot n = 1 →
      0 ≤ (applyPlaneCollision p n p0 - p0).dot n ∧
        (0 ≤ (p - p0).dot n → applyPlaneCollision p n p0 = p)) ∧
    (∀ l minX maxX minY maxY minZ maxZ margin,
      ¬ boxStrictInside (collideBoxLocal l minX maxX minY maxY minZ maxZ margin)
          minX maxX minY maxY minZ maxZ margin ∧
        (¬ boxInside l minX maxX minY maxY minZ maxZ margin →
          collideBoxLocal l minX maxX minY maxY minZ maxZ margin = l)) ∧
    (∀ point dimX dimY dimZ margin axisRaw center radius halfHeight p0 p1 s,
      axisRaw.length ≠ 0 →
      radius = max dimX dimY * 0.5 + margin →
      halfHeight = max 0 (dimZ * 0.5 - max dimX dimY * 0.5) + margin →
      p0 = center - halfHeight • axisRaw.normalized →
      p1 = center + halfHeight • axisRaw.normalized →
      0 ≤ s → s ≤ 1 →
      radius ≤ (collideCapsule point dimX dimY dimZ margin axisRaw center -
          segPoint p0 p1 s).length ∧
        (radius ≤ (point - closestPointOnSegment point p0 p1).length →
          collideCapsule point dimX dimY dimZ margin axisRaw center = point)) := by
  refine ⟨?_, ?_, ?_, ?_, ?_, ?_⟩
  · exact fun p a b r s hab hs0 hs1 => capsuleCorrect_sound p a b r hab s hs0 hs1
  · exact fun p a b r h => capsuleCorrect_unchanged p a b r h
  · exact fun p c r => collideSphere_sound p c r
  · exact fun p n p0 hn => applyPlaneCollision_sound p n p0 hn
  · exact fun l minX maxX minY maxY minZ maxZ margin =>
      collideBoxLocal_sound l minX maxX minY maxY minZ maxZ margin
  · intro point dimX dimY dimZ margin axisRaw center radius halfHeight p0 p1 s
      hax hrad hh hp0 hp1 hs0 hs1
    exact ⟨collideCapsule_sound point dimX dimY dimZ margin axisRaw center radius halfHeight
        p0 p1 hax hrad hh hp0 hp1 s hs0 hs1,
      fun h => collideCapsule_unchanged point dimX dimY dimZ margin axisRaw center radius
        halfHeight p0 p1 hrad hh hp0 hp1 h⟩

/-- C1 counterexample: a zero-length bone capsule (head = tail = origin,
inflated radius 1) with the candidate exactly on its segment: the resolver
returns the candidate unchanged although it lies strictly inside the
inflated surface (distance 0 < 1 from the core segment). -/
theorem C1_zero_length_capsule_counterexample :
    capsuleCorrect ⟨0, 0, 0⟩ ⟨0, 0, 0⟩ ⟨0, 0, 0⟩ 1 = ⟨0, 0, 0⟩ ∧
      ((⟨0, 0, 0⟩ : Vec3) -
        closestPointOnSegment ⟨0, 0, 0⟩ ⟨0, 0, 0⟩ ⟨0, 0, 0⟩).length < 1 := by
  have hclosest : closestPointOnSegment ⟨0, 0, 0⟩ ⟨0, 0, 0⟩ ⟨0, 0, 0⟩ = ⟨0, 0, 0⟩ := by
    simp [closestPointOnSegment, Vec3.lengthSq, Vec3.dot]
  have hzero : ((⟨0, 0, 0⟩ : Vec3) - ⟨0, 0, 0⟩).length = 0 := by
    simp [Vec3.length, Vec3.lengthSq, Vec3.dot]
  constructor
  · simp only [capsuleCorrect, hclosest, hzero]
    norm_num [Vec3.normalized, Vec3.cross, Vec3.length, Vec3.lengthSq, Vec3.dot, hzero]
  · rw [hclosest, hzero]
    norm_num

/-- Witness for C1 at concrete obstacles and candidate points. -/
theorem C1_collision_resolvers_witness :
    (1 : ℝ) ≤ (capsuleCorrect ⟨0, 0, 2⟩ ⟨0, 0, 0⟩ ⟨0, 1, 0⟩ 1 -
        segPoint ⟨0, 0, 0⟩ ⟨0, 1, 0⟩ (1 / 2)).length ∧
      capsuleCorrect ⟨1, 0, 0⟩ ⟨0, 0, 0⟩ ⟨0, 1, 0⟩ 1 = ⟨1, 0, 0⟩ ∧
      (1 : ℝ) ≤ (collideSphere ⟨0, 0, 0⟩ ⟨0, 0, 0⟩ 1 - ⟨0, 0, 0⟩).length ∧
      0 ≤ (applyPlaneCollision ⟨0, 0, -1⟩ ⟨0, 0, 1⟩ ⟨0, 0, 0⟩ - ⟨0, 0, 0⟩).dot ⟨0, 0, 1⟩ ∧
      collideBoxLocal ⟨10, 0, 0⟩ (-1) 1 (-1) 1 (-1) 1 0 = ⟨10, 0, 0⟩ ∧
      (0.5 : ℝ) ≤ (collideCapsule ⟨0, 0, 0⟩ 1 1 4 0 ⟨0, 0, 1⟩ ⟨0, 0, 0⟩ -
        segPoint ⟨0, 0, -1.5⟩ ⟨0, 0, 1.5⟩ 0).length := by
  refine ⟨?_, ?_, ?_, ?_, ?_, ?_⟩
  · exact C1_collision_resolvers_outside.1 ⟨0, 0, 2⟩ ⟨0, 0, 0⟩ ⟨0, 1, 0⟩ 1 (1 / 2)
      (by simp) (by norm_num) (by norm_num)
  · exact C1_collision_resolvers_outside.2.1 ⟨1, 0, 0⟩ ⟨0, 0, 0⟩ ⟨0, 1, 0⟩ 1
      (by norm_num [closestPointOnSegment, clamp, Vec3.length, Vec3.lengthSq, Vec3.dot,
        Real.sqrt_one])
  · exact (C1_collision_resolvers_outside.2.2.1 ⟨0, 0, 0⟩ ⟨0, 0, 0⟩ 1).1
  · exact (C1_collision_resolvers_outside.2.2.2.1 ⟨0, 0, -1⟩ ⟨0, 0, 1⟩ ⟨0, 0, 0⟩
      (by norm_num [Vec3.dot])).1
  · exact (C1_collision_resolvers_outside.2.2.2.2.1 ⟨10, 0, 0⟩ (-1) 1 (-1) 1 (-1) 1 0).2
      (by norm_num [boxInside, boxInflate])
  · exact (C1_collision_resolvers_outside.2.2.2.2.2 ⟨0, 0, 0⟩ 1 1 4 0 ⟨0, 0, 1⟩ ⟨0, 0, 0⟩
      0.5 1.5 ⟨0, 0, -1.5⟩ ⟨0, 0, 1.5⟩ 0
      (by norm_num [Vec3.length, Vec3.lengthSq, Vec3.dot, Real.sqrt_one])
      (by norm_num)
      (by norm_num)
      (by ext <;> norm_num [Vec3.normalized, Vec3.length, Vec3.lengthSq, Vec3.dot,
        Real.sqrt_one])
      (by ext <;> norm_num [Vec3.normalized, Vec3.length, Vec3.lengthSq, Vec3.dot,
        Real.sqrt_one])
      (by norm_num) (by norm_num)).1

/-! Lemmas for the bake-blending pipeline (claims C4 and C5). -/

theorem Vec3.lerp_zero (a b : Vec3) : a.lerp b 0 = a := by
  ext <;> simp [Vec3.lerp]

theorem Quat.slerp_zero (a b : Quat) (h0 : 0 ≤ a.dot b) : Quat.slerp a b 0 = a := by
  have hneg : ¬ a.dot b < 0 := not_lt.2 h0
  simp only [Quat.slerp, if_neg hneg]
  split_ifs with hbr
  · have hlt : a.dot b < 1 := by norm_num at hbr ⊢; linarith
    have hompos : 0 < Real.arccos (a.dot b) := Real.arccos_pos.2 hlt
    have homlt : Real.arccos (a.dot b) < Real.pi := by
      have h2 := Real.arccos_le_pi_div_two.2 h0
      have h3 := Real.pi_pos
      linarith
    have hsin : 0 < Real.sin (Real.arccos (a.dot b)) :=
      Real.sin_pos_of_pos_of_lt_pi hompos homlt
    ext <;> simp [Real.sin_zero, div_self (ne_of_gt hsin)]
  · ext <;> ring

theorem lerp_strictlyBetween (a b t : ℝ) (h0 : 0 < t) (h1 : t < 1) :
    strictlyBetween a b (a + t * (b - a)) := by
  by_cases hab : a = b
  · exact Or.inl ⟨hab, by rw [hab]; ring⟩
  · refine Or.inr ⟨hab, ?_, ?_⟩
    · rcases lt_or_gt_of_ne hab with h | h
      · rw [min_eq_left h.le]; nlinarith
      · rw [min_eq_right h.le]; nlinarith
    · rcases lt_or_gt_of_ne hab with h | h
      · rw [max_eq_right h.le]; nlinarith
      · rw [max_eq_left h.le]; nlinarith

theorem bakeWrite_high (w : ℝ) (mode : BakeMode) (existing springPose : Pose)
    (basePose : Option Pose) (h : 0.999 ≤ w) :
    bakeWrite w mode existing basePose springPose = springPose := by
  simp only [bakeWrite, setAnimkeyPose]
  rw [if_neg (not_lt.2 h)]

theorem bakeWrite_override_low (w : ℝ) (existing springPose : Pose)
    (basePose : Option Pose) (h : w < 0.999) :
    bakeWrite w .OVERRIDE existing basePose springPose = blendOverride existing springPose w := by
  simp only [bakeWrite, cacheExisting, setAnimkeyPose]
  rw [if_neg (not_le.2 h), if_pos h]

theorem bakeWrite_additive_low (w : ℝ) (existing springPose base : Pose) (h : w < 0.999) :
    bakeWrite w .ADDITIVE existing (some base) springPose =
      blendAdditive existing springPose base w := by
  simp only [bakeWrite, cacheExisting, setAnimkeyPose]
  rw [if_neg (not_le.2 h), if_pos h]

/-! Claim C2. -/

/-- C2: in `calculate_step`, the phase vector obtained after dt scaling and
tension damping is replaced by the exact zero vector before being added to
`y_vec` and stored as `old_vec[i]` when its magnitude is strictly below
`threshold`; with magnitude at or above `threshold` it is kept unchanged. -/
theorem C2_threshold_deadzone (phaseVec yVec damped : Vec3) (dtScale tens trshd : ℝ)
    (hdamped : damped =
      if 0 < tens then (1 - tens) • dtScale • phaseVec else dtScale • phaseVec) :
    (damped.length < trshd →
      deadzoneStep phaseVec yVec dtScale tens trshd = (yVec, 0)) ∧
      (trshd ≤ damped.length →
        deadzoneStep phaseVec yVec dtScale tens trshd = (yVec + damped, damped)) := by
  subst hdamped
  simp only [deadzoneStep]
  constructor
  · intro h
    rw [if_pos h, Vec3.add_zero]
  · intro h
    rw [if_neg (not_lt.2 h)]

/-- Witness for C2 at phase vectors below and above a concrete threshold. -/
theorem C2_threshold_deadzone_witness :
    deadzoneStep ⟨1, 0, 0⟩ ⟨0, 1, 0⟩ 1 0 2 = (⟨0, 1, 0⟩, 0) ∧
      deadzoneStep ⟨1, 0, 0⟩ ⟨0, 1, 0⟩ 1 0 (1 / 2) =
        (⟨0, 1, 0⟩ + ⟨1, 0, 0⟩, ⟨1, 0, 0⟩) := by
  have hdamped : (⟨1, 0, 0⟩ : Vec3) =
      if (0 : ℝ) < 0 then ((1 : ℝ) - 0) • (1 : ℝ) • (⟨1, 0, 0⟩ : Vec3)
      else (1 : ℝ) • (⟨1, 0, 0⟩ : Vec3) := by
    rw [if_neg (lt_irrefl 0), Vec3.one_smul]
  have hlen : ((⟨1, 0, 0⟩ : Vec3)).length = 1 := by
    norm_num [Vec3.length, Vec3.lengthSq, Vec3.dot, Real.sqrt_one]
  exact ⟨(C2_threshold_deadzone ⟨1, 0, 0⟩ ⟨0, 1, 0⟩ ⟨1, 0, 0⟩ 1 0 2 hdamped).1
      (by rw [hlen]; norm_num),
    (C2_threshold_deadzone ⟨1, 0, 0⟩ ⟨0, 1, 0⟩ ⟨1, 0, 0⟩ 1 0 (1 / 2) hdamped).2
      (by rw [hlen]; norm_num)⟩

/-! Claim C3. -/

/-- C3 (amended): the scene-field sum is scaled by `SCENE_FORCE_SCALE` before
entering the integrator, while the constant force and the wind-object vector
enter with only the `1 / max(delay, 1)` damping factor. -/
theorem C3_scene_force_scaling_amended (phaseVec forceVecWorld windVecWorld sceneForce : Vec3)
    (useForce useWind useFields : Bool) (delay : ℝ) :
    forceStep phaseVec useForce forceVecWorld useWind windVecWorld useFields sceneForce delay =
      phaseVec + (if useForce then (1 / max delay 1) • forceVecWorld else 0) +
        (if useWind ∧ 0 < windVecWorld.length then (1 / max delay 1) • windVecWorld else 0) +
        (if useFields then (1 / max delay 1) • SCENE_FORCE_SCALE • sceneForce else 0) := by
  simp only [forceStep]
  split_ifs <;> ext <;>
    simp only [Vec3.add_x, Vec3.add_y, Vec3.add_z, Vec3.smul_x, Vec3.smul_y, Vec3.smul_z,
      Vec3.zero_x, Vec3.zero_y, Vec3.zero_z] <;> ring

/-- C3 counterexample: with only the wind object active (wind vector
`(1, 0, 0)`, delay 1, phase vector zero) the integrator adds the full wind
vector; the spec-mandated scaling by `SCENE_FORCE_SCALE` would give
`(0.01, 0, 0)` instead — the claim that the wind contribution is scaled by
`SCENE_FORCE_SCALE` is false on the code. -/
theorem C3_wind_not_scene_scaled_counterexample :
    forceStep 0 false 0 true ⟨1, 0, 0⟩ false 0 1 = ⟨1, 0, 0⟩ ∧
      forceStepSpec 0 false 0 true ⟨1, 0, 0⟩ false 0 1 = ⟨0.01, 0, 0⟩ ∧
      forceStep 0 false 0 true ⟨1, 0, 0⟩ false 0 1 ≠
        forceStepSpec 0 false 0 true ⟨1, 0, 0⟩ false 0 1 := by
  have hlen : (0 : ℝ) < ((⟨1, 0, 0⟩ : Vec3)).length := by
    norm_num [Vec3.length, Vec3.lengthSq, Vec3.dot, Real.sqrt_one]
  have h1 : forceStep 0 false 0 true ⟨1, 0, 0⟩ false 0 1 = ⟨1, 0, 0⟩ := by
    simp only [forceStep]
    rw [if_neg (by simp), if_pos (by exact ⟨by simp, hlen⟩), if_neg (by simp)]
    ext <;> norm_num
  have h2 : forceStepSpec 0 false 0 true ⟨1, 0, 0⟩ false 0 1 = ⟨0.01, 0, 0⟩ := by
    simp only [forceStepSpec]
    rw [if_neg (by simp), if_pos (by exact ⟨by simp, hlen⟩), if_neg (by simp)]
    ext <;> norm_num [SCENE_FORCE_SCALE]
  refine ⟨h1, h2, ?_⟩
  rw [h1, h2]
  intro hcon
  have := congrArg Vec3.x hcon
  norm_num at this

/-! Claim C4. -/

/-- C4 (amended): for every bake weight at or above the 0.999 blending
cutoff (which includes weight 1 and, contrary to the original claim, weights
strictly between 0.999 and 1) the written channels equal the unblended
spring result exactly.  At weight 0 in override mode, location and scale
equal the cached existing animation exactly, the rotation quaternion equals
it whenever the slerp takes no shortest-path negation
(`0 ≤ dot(existing, spring)`), and the euler channel equals the existing
euler passed through the quaternion round-trip of `_blend_override`; the
additive mode reproduces existing location and scale at weight 0 as well.
For weights strictly between 0 and 0.999 in override mode, each location
and scale component lies between the existing and spring values, strictly
when they differ. -/
theorem C4_blend_modes_amended :
    (∀ (w : ℝ) (mode : BakeMode) (existing springPose : Pose) (basePose : Option Pose),
      0.999 ≤ w → bakeWrite w mode existing basePose springPose = springPose) ∧
    (∀ (existing springPose : Pose) (basePose : Option Pose),
      (bakeWrite 0 .OVERRIDE existing basePose springPose).loc = existing.loc ∧
      (bakeWrite 0 .OVERRIDE existing basePose springPose).scale = existing.scale ∧
      (0 ≤ existing.rotQuat.dot springPose.rotQuat →
        (bakeWrite 0 .OVERRIDE existing basePose springPose).rotQuat = existing.rotQuat) ∧
      (0 ≤ (eulerToQuatXYZ existing.rotEuler).dot (eulerToQuatXYZ springPose.rotEuler) →
        (bakeWrite 0 .OVERRIDE existing basePose springPose).rotEuler =
          quatToEulerXYZ (eulerToQuatXYZ existing.rotEuler))) ∧
    (∀ existing springPose base : Pose,
      (bakeWrite 0 .ADDITIVE existing (some base) springPose).loc = existing.loc ∧
      (bakeWrite 0 .ADDITIVE existing (some base) springPose).scale = existing.scale) ∧
    (∀ (w : ℝ) (existing springPose : Pose) (basePose : Option Pose), 0 < w → w < 0.999 →
      strictlyBetween existing.loc.x springPose.loc.x
        (bakeWrite w .OVERRIDE existing basePose springPose).loc.x ∧
      strictlyBetween existing.loc.y springPose.loc.y
        (bakeWrite w .OVERRIDE existing basePose springPose).loc.y ∧
      strictlyBetween existing.loc.z springPose.loc.z
        (bakeWrite w .OVERRIDE existing basePose springPose).loc.z ∧
      strictlyBetween existing.scale.x springPose.scale.x
        (bakeWrite w .OVERRIDE existing basePose springPose).scale.x ∧
      strictlyBetween existing.scale.y springPose.scale.y
        (bakeWrite w .OVERRIDE existing basePose springPose).scale.y ∧
      strictlyBetween existing.scale.z springPose.scale.z
        (bakeWrite w .OVERRIDE existing basePose springPose).scale.z) := by
  refine ⟨fun w mode existing springPose basePose h =>
      bakeWrite_high w mode existing springPose basePose h, ?_, ?_, ?_⟩
  · intro existing springPose basePose
    rw [bakeWrite_override_low 0 existing springPose basePose (by norm_num)]
    refine ⟨?_, ?_, ?_, ?_⟩
    · exact Vec3.lerp_zero _ _
    · exact Vec3.lerp_zero _ _
    · intro h
      exact Quat.slerp_zero _ _ h
    · intro h
      simp only [blendOverride]
      rw [Quat.slerp_zero _ _ h]
  · intro existing springPose base
    rw [bakeWrite_additive_low 0 existing springPose base (by norm_num)]
    constructor
    · ext <;> simp [blendAdditive]
    · ext <;> simp [blendAdditive, Vec3.lerp]
  · intro w existing springPose basePose hw0 hw1
    rw [bakeWrite_override_low w existing springPose basePose hw1]
    have hw1' : w < 1 := by linarith
    have hx := lerp_strictlyBetween existing.loc.x springPose.loc.x w hw0 hw1'
    have hy := lerp_strictlyBetween existing.loc.y springPose.loc.y w hw0 hw1'
    have hz := lerp_strictlyBetween existing.loc.z springPose.loc.z w hw0 hw1'
    have hsx := lerp_strictlyBetween existing.scale.x springPose.scale.x w hw0 hw1'
    have hsy := lerp_strictlyBetween existing.scale.y springPose.scale.y w hw0 hw1'
    have hsz := lerp_strictlyBetween existing.scale.z springPose.scale.z w hw0 hw1'
    exact ⟨by simpa [blendOverride, Vec3.lerp] using hx,
      by simpa [blendOverride, Vec3.lerp] using hy,
      by simpa [blendOverride, Vec3.lerp] using hz,
      by simpa [blendOverride, Vec3.lerp] using hsx,
      by simpa [blendOverride, Vec3.lerp] using hsy,
      by simpa [blendOverride, Vec3.lerp] using hsz⟩

/-- C4 counterexample: at bake weight 0.9995, strictly between 0 and 1,
`cache_existing_animation` skips caching (weight at or above 0.999) and
`set_animkey` writes the unblended spring pose, so the written location does
not lie strictly between the differing existing and spring values. -/
theorem C4_blend_cutoff_counterexample :
    (0 : ℝ) < 0.9995 ∧ (0.9995 : ℝ) < 1 ∧
      bakeWrite 0.9995 .OVERRIDE
          ⟨⟨0, 0, 0⟩, ⟨1, 0, 0, 0⟩, ⟨0, 0, 0⟩, ⟨1, 1, 1⟩⟩ none
          ⟨⟨1, 0, 0⟩, ⟨1, 0, 0, 0⟩, ⟨0, 0, 0⟩, ⟨1, 1, 1⟩⟩ =
        ⟨⟨1, 0, 0⟩, ⟨1, 0, 0, 0⟩, ⟨0, 0, 0⟩, ⟨1, 1, 1⟩⟩ ∧
      ((⟨⟨0, 0, 0⟩, ⟨1, 0, 0, 0⟩, ⟨0, 0, 0⟩, ⟨1, 1, 1⟩⟩ : Pose)).loc.x ≠
        ((⟨⟨1, 0, 0⟩, ⟨1, 0, 0, 0⟩, ⟨0, 0, 0⟩, ⟨1, 1, 1⟩⟩ : Pose)).loc.x := by
  refine ⟨by norm_num, by norm_num, ?_, by norm_num⟩
  simp only [bakeWrite, cacheExisting, setAnimkeyPose]
  rw [if_pos (by norm_num : (0.999 : ℝ) ≤ 0.9995), if_neg (by norm_num : ¬ (0.9995 : ℝ) < 0.999)]

/-- Witness for C4 at concrete weights and poses. -/
theorem C4_blend_modes_witness :
    bakeWrite 1 .OVERRIDE ⟨⟨0, 0, 0⟩, ⟨1, 0, 0, 0⟩, ⟨0, 0, 0⟩, ⟨1, 1, 1⟩⟩ none
        ⟨⟨2, 3, 4⟩, ⟨1, 0, 0, 0⟩, ⟨0, 0, 0⟩, ⟨1, 1, 1⟩⟩ =
      ⟨⟨2, 3, 4⟩, ⟨1, 0, 0, 0⟩, ⟨0, 0, 0⟩, ⟨1, 1, 1⟩⟩ ∧
    (bakeWrite 0 .OVERRIDE ⟨⟨0, 0, 0⟩, ⟨1, 0, 0, 0⟩, ⟨0, 0, 0⟩, ⟨1, 1, 1⟩⟩ none
        ⟨⟨2, 3, 4⟩, ⟨1, 0, 0, 0⟩, ⟨0, 0, 0⟩, ⟨1, 1, 1⟩⟩).rotQuat = ⟨1, 0, 0, 0⟩ ∧
    (bakeWrite 0 .ADDITIVE ⟨⟨0, 0, 0⟩, ⟨1, 0, 0, 0⟩, ⟨0, 0, 0⟩, ⟨1, 1, 1⟩⟩
        (some ⟨⟨0, 0, 0⟩, ⟨1, 0, 0, 0⟩, ⟨0, 0, 0⟩, ⟨1, 1, 1⟩⟩)
        ⟨⟨2, 3, 4⟩, ⟨1, 0, 0, 0⟩, ⟨0, 0, 0⟩, ⟨1, 1, 1⟩⟩).loc = ⟨0, 0, 0⟩ ∧
    strictlyBetween (0 : ℝ) 2
      (bakeWrite (1 / 2) .OVERRIDE ⟨⟨0, 0, 0⟩, ⟨1, 0, 0, 0⟩, ⟨0, 0, 0⟩, ⟨1, 1, 1⟩⟩ none
        ⟨⟨2, 3, 4⟩, ⟨1, 0, 0, 0⟩, ⟨0, 0, 0⟩, ⟨1, 1, 1⟩⟩).loc.x := by
  refine ⟨C4_blend_modes_amended.1 1 .OVERRIDE _ _ none (by norm_num), ?_, ?_, ?_⟩
  · exact (C4_blend_modes_amended.2.1 ⟨⟨0, 0, 0⟩, ⟨1, 0, 0, 0⟩, ⟨0, 0, 0⟩, ⟨1, 1, 1⟩⟩
      ⟨⟨2, 3, 4⟩, ⟨1, 0, 0, 0⟩, ⟨0, 0, 0⟩, ⟨1, 1, 1⟩⟩ none).2.2.1 (by norm_num [Quat.dot])
  · exact (C4_blend_modes_amended.2.2.1 ⟨⟨0, 0, 0⟩, ⟨1, 0, 0, 0⟩, ⟨0, 0, 0⟩, ⟨1, 1, 1⟩⟩
      ⟨⟨2, 3, 4⟩, ⟨1, 0, 0, 0⟩, ⟨0, 0, 0⟩, ⟨1, 1, 1⟩⟩
      ⟨⟨0, 0, 0⟩, ⟨1, 0, 0, 0⟩, ⟨0, 0, 0⟩, ⟨1, 1, 1⟩⟩).1
  · exact (C4_blend_modes_amended.2.2.2 (1 / 2) ⟨⟨0, 0, 0⟩, ⟨1, 0, 0, 0⟩, ⟨0, 0, 0⟩, ⟨1, 1, 1⟩⟩
      ⟨⟨2, 3, 4⟩, ⟨1, 0, 0, 0⟩, ⟨0, 0, 0⟩, ⟨1, 1, 1⟩⟩ none (by norm_num) (by norm_num)).1

/-! Claim C5. -/

/-- C5 (amended): with `use_loop`, `match_end_to_start` keys the start-frame
pose at the end frame exactly — but only when the bake weight is at or above
the 0.999 blending cutoff (in particular at weight 1), for either bake mode;
below the cutoff `set_animkey` blends the start pose against the cached
end-frame animation, so the keyed transform generally differs from the
start-frame capture. -/
theorem C5_loop_match_amended (w : ℝ) (mode : BakeMode) (existingAtEnd startPose : Pose)
    (basePose : Option Pose) (h : 0.999 ≤ w) :
    matchEndToStartBone w mode existingAtEnd basePose startPose = startPose := by
  simp only [matchEndToStartBone, bakeWrite, setAnimkeyPose]
  rw [if_neg (not_lt.2 h)]

/-- C5 counterexample: at bake weight 0 the pose keyed at the end frame by
`match_end_to_start` is the cached end-frame animation, not the start-frame
capture — the claim's "regardless of bake weight" fails. -/
theorem C5_loop_match_counterexample :
    (matchEndToStartBone 0 .OVERRIDE ⟨⟨5, 0, 0⟩, ⟨1, 0, 0, 0⟩, ⟨0, 0, 0⟩, ⟨1, 1, 1⟩⟩ none
        ⟨⟨1, 2, 3⟩, ⟨1, 0, 0, 0⟩, ⟨0, 0, 0⟩, ⟨1, 1, 1⟩⟩).loc ≠
      ((⟨⟨1, 2, 3⟩, ⟨1, 0, 0, 0⟩, ⟨0, 0, 0⟩, ⟨1, 1, 1⟩⟩ : Pose)).loc := by
  have hlow : matchEndToStartBone 0 .OVERRIDE ⟨⟨5, 0, 0⟩, ⟨1, 0, 0, 0⟩, ⟨0, 0, 0⟩, ⟨1, 1, 1⟩⟩ none
      ⟨⟨1, 2, 3⟩, ⟨1, 0, 0, 0⟩, ⟨0, 0, 0⟩, ⟨1, 1, 1⟩⟩ =
      blendOverride ⟨⟨5, 0, 0⟩, ⟨1, 0, 0, 0⟩, ⟨0, 0, 0⟩, ⟨1, 1, 1⟩⟩
        ⟨⟨1, 2, 3⟩, ⟨1, 0, 0, 0⟩, ⟨0, 0, 0⟩, ⟨1, 1, 1⟩⟩ 0 :=
    bakeWrite_override_low 0 _ _ none (by norm_num)
  rw [hlow]
  intro hcon
  have hx := congrArg Vec3.x hcon
  simp [blendOverride, Vec3.lerp] at hx

/-- Witness for C5 at bake weight 1. -/
theorem C5_loop_match_witness :
    matchEndToStartBone 1 .OVERRIDE ⟨⟨5, 0, 0⟩, ⟨1, 0, 0, 0⟩, ⟨0, 0, 0⟩, ⟨1, 1, 1⟩⟩ none
        ⟨⟨1, 2, 3⟩, ⟨1, 0, 0, 0⟩, ⟨0, 0, 0⟩, ⟨1, 1, 1⟩⟩ =
      ⟨⟨1, 2, 3⟩, ⟨1, 0, 0, 0⟩, ⟨0, 0, 0⟩, ⟨1, 1, 1⟩⟩ :=
  C5_loop_match_amended 1 .OVERRIDE _ _ none (by norm_num)

/-! Claim C6. -/

/-- C6: `_calculate_wind_vector` returns the normalized world Z axis of the
wind object times the magnitude `min + (max - min) * (0.5 + 0.5 * sin(2 π f
(frame / scene_fps)))`, where min and max are swapped first when
`min > max`; for `f ≤ 0` the magnitude is exactly `max`; a missing wind
object or a zero-length axis gives the zero vector — the function coincides
with the specification's formula. -/
theorem C6_wind_vector_formula (windAxis : Option Vec3)
    (minStrength maxStrength frequency frameCurrent fps fpsBase : ℝ) :
    calculateWindVector windAxis minStrength maxStrength frequency frameCurrent fps fpsBase =
      windVectorSpec windAxis minStrength maxStrength frequency frameCurrent fps fpsBase := by
  cases windAxis with
  | none => rfl
  | some d =>
    simp only [calculateWindVector, windVectorSpec]
    split_ifs <;>
      first
        | rfl
        | (rw [show frameCurrent / getSceneFps fps fpsBase * frequency * Real.pi * 2 =
            2 * Real.pi * frequency * (frameCurrent / getSceneFps fps fpsBase) from by ring])

/-! Claim C7. -/

/-- C7: the Calculate operator rejects a run whose start frame is at or
beyond the end frame, or whose span exceeds 10,000 frames, before any
mutation: it returns CANCELLED with an empty mutation list. -/
theorem C7_invalid_range_rejected (sf ef : Int) (hasSelection hasTrees useLoop : Bool)
    (simEvents : List SceneMut) (h : sf ≥ ef ∨ ef - sf > 10000) :
    calculateExecute sf ef hasSelection hasTrees useLoop simEvents =
      (OpResult.CANCELLED, []) := by
  rcases h with h | h
  · simp only [calculateExecute]
    rw [if_pos h]
  · by_cases h1 : sf ≥ ef
    · simp only [calculateExecute]
      rw [if_pos h1]
    · simp only [calculateExecute]
      rw [if_neg h1, if_pos h]

/-- Witness for C7: both rejection conditions at concrete frame ranges. -/
theorem C7_invalid_range_witness :
    calculateExecute 5 3 true true false [] = (OpResult.CANCELLED, []) ∧
      calculateExecute 0 20001 true true false [] = (OpResult.CANCELLED, []) :=
  ⟨C7_invalid_range_rejected 5 3 true true false [] (Or.inl (by norm_num)),
   C7_invalid_range_rejected 0 20001 true true false [] (Or.inr (by norm_num))⟩

/-! Claim C8. -/

theorem foldl_append_singleton {α β : Type} (l : List α) (f : α → β) (init : List β) :
    l.foldl (fun acc a => acc ++ [f a]) init = init ++ l.map f := by
  induction l generalizing init with
  | nil => simp
  | cons a t ih => simp [ih]

theorem foldl_append_flatMap {α β : Type} (l : List α) (g : α → List β) (init : List β) :
    l.foldl (fun acc a => acc ++ g a) init = init ++ l.flatMap g := by
  induction l generalizing init with
  | nil => simp
  | cons a t ih => simp [ih]

theorem mem_intRangeAux : ∀ (n : Nat) (start x : Int),
    x ∈ intRangeAux n start ↔ start ≤ x ∧ x < start + n := by
  intro n
  induction n with
  | zero => intro start x; simp [intRangeAux]
  | succ m ih =>
    intro start x
    simp only [intRangeAux, List.mem_cons, ih]
    omega

theorem pairwise_intRangeAux : ∀ (n : Nat) (start : Int),
    List.Pairwise (· < ·) (intRangeAux n start) := by
  intro n
  induction n with
  | zero => intro start; simp [intRangeAux]
  | succ m ih =>
    intro start
    refine List.Pairwise.cons ?_ (ih (start + 1))
    intro y hy
    have := (mem_intRangeAux m (start + 1) y).1 hy
    omega

theorem mem_frameRange (sf ef f : Int) : f ∈ frameRange sf ef ↔ sf + 1 ≤ f ∧ f ≤ ef := by
  unfold frameRange
  rw [mem_intRangeAux]
  omega

/-- C8: `execute_simulation` visits exactly the frames `sf + 1 .. ef` in
increasing order; each frame runs one `calculate_step` per sub-step, depth
key (in ascending sorted order) and chain, with time fraction
`1 / sub_steps`; the keyframe flag is set exactly on the last sub-step. -/
theorem C8_driver_schedule (sf ef : Int) (subSteps : Int) (keys : List Int)
    (trees : Int → Nat) (hsub : 1 ≤ subSteps) :
    executeSimulationTrace sf ef subSteps keys trees =
      (frameRange sf ef).flatMap (fun f =>
        (List.range subSteps.toNat).flatMap (fun st =>
          keys.mergeSort.flatMap (fun k =>
            (List.range (trees k)).map (fun c =>
              ⟨f, st, k, c, 1 / (subSteps : ℝ), st == subSteps.toNat - 1⟩)))) ∧
      (∀ f : Int, f ∈ frameRange sf ef ↔ sf + 1 ≤ f ∧ f ≤ ef) ∧
      List.Pairwise (· < ·) (frameRange sf ef) ∧
      List.Sorted (· ≤ ·) keys.mergeSort ∧
      keys.mergeSort.Perm keys ∧
      (∀ call : StepCall, call ∈ executeSimulationTrace sf ef subSteps keys trees →
        call.dtScale = 1 / (subSteps : ℝ) ∧ call.subStep < subSteps.toNat ∧
          (call.insertKey = true ↔ call.subStep = subSteps.toNat - 1) ∧
          sf + 1 ≤ call.frame ∧ call.frame ≤ ef ∧ call.depth ∈ keys ∧
          call.chain < trees call.depth) := by
  have hmax : max 1 subSteps = subSteps := max_eq_right hsub
  have htrace : executeSimulationTrace sf ef subSteps keys trees =
      (frameRange sf ef).flatMap (fun f =>
        (List.range subSteps.toNat).flatMap (fun st =>
          keys.mergeSort.flatMap (fun k =>
            (List.range (trees k)).map (fun c =>
              ⟨f, st, k, c, 1 / (subSteps : ℝ), st == subSteps.toNat - 1⟩)))) := by
    simp only [executeSimulationTrace, hmax, foldl_append_singleton, foldl_append_flatMap,
      List.nil_append]
  refine ⟨htrace, fun f => mem_frameRange sf ef f, ?_, ?_, ?_, ?_⟩
  · exact pairwise_intRangeAux _ _
  · exact List.sorted_mergeSort' keys
  · exact List.mergeSort_perm keys _
  · intro call hmem
    rw [htrace] at hmem
    simp only [List.mem_flatMap, List.mem_map, List.mem_range] at hmem
    obtain ⟨f, hf, st, hst, k, hk, c, hc, rfl⟩ := hmem
    have hfr := (mem_frameRange sf ef f).1 hf
    refine ⟨rfl, hst, ?_, hfr.1, hfr.2, ?_, hc⟩
    · simp
    · exact (List.mergeSort_perm keys _).mem_iff.1 hk

/-- Witness for C8 at a concrete two-frame, two-sub-step schedule. -/
theorem C8_driver_schedule_witness :
    executeSimulationTrace 0 2 2 [1] (fun _ => 1) =
      (frameRange 0 2).flatMap (fun f =>
        (List.range (2 : Int).toNat).flatMap (fun st =>
          ([1] : List Int).mergeSort.flatMap (fun k =>
            (List.range 1).map (fun c =>
              ⟨f, st, k, c, 1 / ((2 : Int) : ℝ), st == (2 : Int).toNat - 1⟩)))) ∧
      ((1 : Int) ∈ frameRange 0 2 ↔ 0 + 1 ≤ (1 : Int) ∧ (1 : Int) ≤ 2) :=
  ⟨(C8_driver_schedule 0 2 2 [1] (fun _ => 1) (by norm_num)).1,
   (C8_driver_schedule 0 2 2 [1] (fun _ => 1) (by norm_num)).2.1 1⟩

/-! Claim C9. -/

theorem isChainRoot_iff (A : Armature) (selected : List Nat) (b : Nat) :
    isChainRoot A selected b = true ↔
      ∃ p, A.parent b = some p ∧ (p ∉ selected ∨ (A.children p).head? ≠ some b) := by
  unfold isChainRoot
  cases hp : A.parent b with
  | none =>
    simp
  | some p =>
    show (if p ∉ selected then true
      else if (A.children p).head? ≠ some b then true else false) = true ↔ _
    by_cases h1 : p ∉ selected
    · rw [if_pos h1]
      exact iff_of_true rfl ⟨p, rfl, Or.inl h1⟩
    · rw [if_neg h1]
      by_cases h2 : (A.children p).head? ≠ some b
      · rw [if_pos h2]
        exact iff_of_true rfl ⟨p, rfl, Or.inr h2⟩
      · rw [if_neg h2]
        constructor
        · intro hfalse
          simp at hfalse
        · rintro ⟨q, hq, hcase⟩
          injection hq with hq2
          subst hq2
          rcases hcase with hc | hc
          · exact absurd hc h1
          · exact absurd hc h2

theorem isChainRoot_parent (A : Armature) (selected : List Nat) (b : Nat)
    (h : isChainRoot A selected b = true) : ∃ p, A.parent b = some p := by
  obtain ⟨p, hp, _⟩ := (isChainRoot_iff A selected b).1 h
  exact ⟨p, hp⟩

theorem head?_mem {α : Type} {l : List α} {a : α} (h : l.head? = some a) : a ∈ l := by
  cases l with
  | nil => simp at h
  | cons x t =>
    simp at h
    subst h
    exact List.mem_cons_self _ _

theorem chainWalk_members_have_parents (A : Armature) (selected : List Nat)
    (hwf : chainWf A) :
    ∀ (fuel c : Nat), (∃ p, A.parent c = some p) →
      ∀ x ∈ chainWalk A selected c fuel, ∃ p, A.parent x = some p := by
  intro fuel
  induction fuel with
  | zero =>
    intro c _ x hx
    simp [chainWalk] at hx
  | succ m ih =>
    intro c hc x hx
    simp only [chainWalk] at hx
    split_ifs at hx with hcs
    · rcases List.mem_cons.1 hx with rfl | hx2
      · exact hc
      · cases hhead : (A.children c).head? with
        | none =>
          rw [hhead] at hx2
          simp at hx2
        | some c2 =>
          rw [hhead] at hx2
          exact ih c2 ⟨c, hwf c c2 (head?_mem hhead)⟩ x hx2
    · simp at hx

theorem chainWalk_head (A : Armature) (selected : List Nat) :
    ∀ (fuel c b : Nat), (chainWalk A selected c fuel).head? = some b →
      b = c ∧ c ∈ selected := by
  intro fuel c b h
  cases fuel with
  | zero => simp [chainWalk] at h
  | succ m =>
    simp only [chainWalk] at h
    split_ifs at h with hcs
    · simp at h
      exact ⟨h.symm, hcs⟩
    · simp at h

theorem chainWalk_chain (A : Armature) (selected : List Nat) :
    ∀ (fuel c : Nat),
      List.Chain' (fun a b => (A.children a).head? = some b ∧ b ∈ selected)
        (chainWalk A selected c fuel) := by
  intro fuel
  induction fuel with
  | zero => intro c; simp [chainWalk]
  | succ m ih =>
    intro c
    simp only [chainWalk]
    split_ifs with hcs
    · cases hhead : (A.children c).head? with
      | none => simp
      | some c2 =>
        rw [List.chain'_cons']
        refine ⟨?_, ih c2⟩
        intro b hb
        obtain ⟨rfl, hsel⟩ := chainWalk_head A selected m c2 b (Option.mem_def.1 hb)
        exact ⟨hhead, hsel⟩
    · simp

theorem chainFromRoot_chain (A : Armature) (selected : List Nat) (fuel root : Nat) :
    List.Chain' (fun a b => (A.children a).head? = some b ∧ b ∈ selected)
      (chainFromRoot A selected fuel root) := by
  unfold chainFromRoot
  cases hhead : (A.children root).head? with
  | none => simp
  | some c =>
    rw [List.chain'_cons']
    refine ⟨?_, chainWalk_chain A selected fuel c⟩
    intro b hb
    obtain ⟨rfl, hsel⟩ := chainWalk_head A selected fuel c b (Option.mem_def.1 hb)
    exact ⟨hhead, hsel⟩

theorem chainWalk_last (A : Armature) (selected : List Nat) :
    ∀ (fuel c last : Nat), (chainWalk A selected c fuel).length < fuel →
      (chainWalk A selected c fuel).getLast? = some last →
      ¬ ∃ next, (A.children last).head? = some next ∧ next ∈ selected := by
  intro fuel
  induction fuel with
  | zero =>
    intro c last h _
    simp [chainWalk] at h
  | succ m ih =>
    intro c last hlen hl
    simp only [chainWalk] at hlen hl
    split_ifs at hlen hl with hcs
    · cases hhead : (A.children c).head? with
      | none =>
        rw [hhead] at hl
        simp at hl
        subst hl
        rintro ⟨next, hnext, _⟩
        rw [hhead] at hnext
        simp at hnext
      | some c2 =>
        rw [hhead] at hl hlen
        have hl2 : (c :: chainWalk A selected c2 m).getLast? = some last := hl
        have hlen2 : (c :: chainWalk A selected c2 m).length < m + 1 := hlen
        cases hwalk : chainWalk A selected c2 m with
        | nil =>
          rw [hwalk] at hl2 hlen2
          simp at hl2 hlen2
          subst hl2
          rintro ⟨next, hnext, hnextsel⟩
          rw [hhead] at hnext
          cases hnext
          cases m with
          | zero => omega
          | succ m2 =>
            simp only [chainWalk] at hwalk
            split_ifs at hwalk
        | cons w ws =>
          rw [hwalk] at hl2 hlen2
          rw [List.getLast?_cons_cons] at hl2
          rw [← hwalk] at hl2
          apply ih c2 last _ hl2
          rw [hwalk]
          simp only [List.length_cons] at hlen2 ⊢
          omega
    · simp at hl

/-- C9: in `get_tree_list`, a selected bone with a parent is a chain root
iff its parent is outside the selection or the bone is not the parent's
first declared child; bones without a parent appear in no chain; along
every chain, each successor is its predecessor's first child and selected;
and when the walk's fuel is not exhausted, a chain ends only at a bone with
no first child in the selection. -/
theorem C9_chain_builder (A : Armature) (selected : List Nat) (fuel : Nat)
    (hwf : chainWf A) :
    (∀ b, b ∈ selected.filter (fun x => isChainRoot A selected x) ↔
      (b ∈ selected ∧
        ∃ p, A.parent b = some p ∧ (p ∉ selected ∨ (A.children p).head? ≠ some b))) ∧
    (∀ b, A.parent b = none →
      ∀ d ch, (d, ch) ∈ getTreeList A selected fuel → b ∉ ch) ∧
    (∀ d ch, (d, ch) ∈ getTreeList A selected fuel →
      List.Chain' (fun a c => (A.children a).head? = some c ∧ c ∈ selected) ch) ∧
    (∀ d ch, (d, ch) ∈ getTreeList A selected fuel → ch.length < fuel + 1 →
      ∀ last, ch.getLast? = some last →
        ¬ ∃ next, (A.children last).head? = some next ∧ next ∈ selected) := by
  refine ⟨?_, ?_, ?_, ?_⟩
  · intro b
    rw [List.mem_filter, isChainRoot_iff]
  · intro b hb d ch hch hbch
    simp only [getTreeList, List.mem_map, List.mem_filter] at hch
    obtain ⟨r, ⟨hrsel, hroot⟩, heq⟩ := hch
    injection heq with hd1 hd2
    subst hd2
    unfold chainFromRoot at hbch
    cases hhead : (A.children r).head? with
    | none =>
      rw [hhead] at hbch
      simp at hbch
      subst hbch
      obtain ⟨p, hp⟩ := isChainRoot_parent A selected b hroot
      rw [hb] at hp
      cases hp
    | some c =>
      rw [hhead] at hbch
      rcases List.mem_cons.1 hbch with rfl | hbwalk
      · obtain ⟨p, hp⟩ := isChainRoot_parent A selected b hroot
        rw [hb] at hp
        cases hp
      · obtain ⟨p, hp⟩ := chainWalk_members_have_parents A selected hwf fuel c
          ⟨r, hwf r c (head?_mem hhead)⟩ b hbwalk
        rw [hb] at hp
        cases hp
  · intro d ch hch
    simp only [getTreeList, List.mem_map, List.mem_filter] at hch
    obtain ⟨r, _, heq⟩ := hch
    injection heq with hd1 hd2
    subst hd2
    exact chainFromRoot_chain A selected fuel r
  · intro d ch hch hlen last hlast
    simp only [getTreeList, List.mem_map, List.mem_filter] at hch
    obtain ⟨r, _, heq⟩ := hch
    injection heq with hd1 hd2
    subst hd2
    unfold chainFromRoot at hlen hlast
    cases hhead : (A.children r).head? with
    | none =>
      rw [hhead] at hlast
      simp at hlast
      subst hlast
      rintro ⟨next, hnext, _⟩
      rw [hhead] at hnext
      simp at hnext
    | some c =>
      rw [hhead] at hlast hlen
      have hlast2 : (r :: chainWalk A selected c fuel).getLast? = some last := hlast
      have hlen2 : (r :: chainWalk A selected c fuel).length < fuel + 1 := hlen
      cases hwalk : chainWalk A selected c fuel with
      | nil =>
        rw [hwalk] at hlast2 hlen2
        simp at hlast2 hlen2
        subst hlast2
        rintro ⟨next, hnext, hnextsel⟩
        rw [hhead] at hnext
        cases hnext
        cases fuel with
        | zero => omega
        | succ m2 =>
          simp only [chainWalk] at hwalk
          split_ifs at hwalk
      | cons w ws =>
        rw [hwalk] at hlast2 hlen2
        rw [List.getLast?_cons_cons] at hlast2
        rw [← hwalk] at hlast2
        apply chainWalk_last A selected fuel c last _ hlast2
        rw [hwalk]
        simp only [List.length_cons] at hlen2 ⊢
        omega

/-- Witness for C9 on the sample armature (root bone 0 unselected, its two
children 1 and 2 selected). -/
theorem C9_chain_builder_witness :
    ((1 : Nat) ∈ [1, 2].filter (fun x => isChainRoot sampleArmature [1, 2] x)) ∧
      ((0 : Nat) ∉ ([1] : List Nat)) ∧
      List.Chain' (fun a c => (sampleArmature.children a).head? = some c ∧ c ∈ [1, 2])
        ([1] : List Nat) := by
  have hwf : chainWf sampleArmature := by
    intro p c hc
    by_cases hp : p = 0
    · subst hp
      simp only [sampleArmature] at hc
      simp at hc
      rcases hc with rfl | rfl <;> simp [sampleArmature]
    · simp [sampleArmature, hp] at hc
  refine ⟨?_, ?_, ?_⟩
  · exact ((C9_chain_builder sampleArmature [1, 2] 5 hwf).1 1).mpr
      ⟨by decide, 0, by decide, Or.inl (by decide)⟩
  · exact (C9_chain_builder sampleArmature [1, 2] 5 hwf).2.1 0 (by decide) 1 [1] (by decide)
  · exact (C9_chain_builder sampleArmature [1, 2] 5 hwf).2.2.1 1 [1] (by decide)

end SpringMagic
